import Mathlib

/-
Verification development for the graph-statistics utilities of the
Everyday-Utilities repository.

The Python sources under meb/utils are shallowly embedded here:

* meb/utils/statistics.py         compute_zscore
* meb/utils/network/algorithms.py sign vectors, Kernighan-Lin refinement,
                                  spectral community detection
* meb/utils/network/subgraphs.py  triadic census
* meb/utils/network/randomisation.py
                                  check_standard, NetworkRewiring switching

Numbers that the Python code computes with floating point are modelled
exactly with rationals; the eigenvector returned by numpy.linalg.eig is
modelled as an oracle parameter (an arbitrary real-part vector per working
subset), since every concrete eigenvector outcome corresponds to one
oracle instance.  Randomness in the rewiring engine is modelled as an
oblivious decision sequence: every realisable sequence of category and
index draws of the Python loop corresponds to one decision list.
-/

namespace EverydayUtils

/-! ## Statistics: compute_zscore (statistics.py, lines 113-135) -/

/-- numpy.mean of a list of rationals. -/
def mean (r : List ℚ) : ℚ := r.sum / r.length

/-- Population variance, the square of numpy.std (ddof = 0).  The Python
code branches on std == 0.0, which for the exact nonnegative square root
holds iff the variance is 0. -/
def variance (r : List ℚ) : ℚ := (r.map (fun x => (x - mean r) ^ 2)).sum / r.length

/-- Result of compute_zscore.  undef models numpy.nan, posInf and negInf
model the numpy infinities, fin q is an exactly represented value and
ratio n v denotes n divided by the square root of v (the generic branch
nominator / std). -/
inductive ZValue where
  | undef : ZValue
  | posInf : ZValue
  | negInf : ZValue
  | fin : ℚ → ZValue
  | ratio : ℚ → ℚ → ZValue
deriving DecidableEq, Repr

/-- Real denotation of a ZValue in its finite cases; the sentinel cases
are given the junk value 0. -/
noncomputable def ZValue.denote : ZValue → ℝ
  | .fin q => (q : ℝ)
  | .ratio n v => (n : ℝ) / Real.sqrt (v : ℝ)
  | _ => 0

/-- Embedding of compute_zscore from statistics.py. -/
def compute_zscore (observable : ℚ) (random_stats : List ℚ) : ZValue :=
  if random_stats.isEmpty then .undef
  else
    let m := mean random_stats
    let nominator := observable - m
    if nominator = 0 then .fin nominator
    else if variance random_stats = 0 then
      (if nominator < 0 then .negInf else .posInf)
    else .ratio nominator (variance random_stats)

/-! ## Sign vectors (algorithms.py, line 101) -/

/-- The sign-vector conversion applied to the real parts of the dominant
eigenvector: 1 if x > 0 else -1. -/
def sign_vector (v : List ℚ) : List ℤ := v.map (fun x => if 0 < x then 1 else -1)

/-! ## Triadic census (subgraphs.py, lines 75-263) -/

/-- The sixteen canonical triad class names. -/
inductive Triad where
  | t003 | t012 | t102 | t021D | t021U | t021C | t111D | t111U
  | t030T | t030C | t201 | t120D | t120U | t120C | t210 | t300
deriving DecidableEq, Repr

/-- triad_names from subgraphs.py, in source order. -/
def triad_names : List Triad :=
  [.t003, .t012, .t102, .t021D, .t021U, .t021C, .t111D, .t111U,
   .t030T, .t030C, .t201, .t120D, .t120U, .t120C, .t210, .t300]

/-- The 64-entry tricode lookup table from subgraphs.py. -/
def tricodes : List ℕ :=
  [1, 2, 2, 3, 2, 4, 6, 8, 2, 6, 5, 7, 3, 8, 7, 11, 2, 6, 4, 8, 5, 9,
   9, 13, 6, 10, 9, 14, 7, 14, 12, 15, 2, 5, 6, 7, 6, 9, 10, 14, 4, 9, 9,
   12, 8, 13, 14, 15, 3, 7, 8, 11, 7, 12, 14, 15, 8, 14, 13, 15, 11, 15,
   15, 16]

/-- tricode_to_name: maps a 6-bit code to the triad class of belonging. -/
def tricode_to_name (code : ℕ) : Triad :=
  triad_names.getD (tricodes.getD code 1 - 1) .t003

/-- A directed graph on the dense node set 0 .. n-1 with a boolean
adjacency predicate; simple by construction (no parallel edges). -/
structure Digraph where
  n : ℕ
  adj : ℕ → ℕ → Bool

/-- No self-loops among the graph nodes. -/
def Digraph.loopless (G : Digraph) : Prop := ∀ v < G.n, G.adj v v = false

/-- _tricode from triadic_census: each directed link among v, u, w is a
bit of a 6-bit integer. -/
def tricode (G : Digraph) (v u w : ℕ) : ℕ :=
  (if G.adj v u then 1 else 0) + (if G.adj u v then 2 else 0) +
  (if G.adj v w then 4 else 0) + (if G.adj w v then 8 else 0) +
  (if G.adj u w then 16 else 0) + (if G.adj w u then 32 else 0)

/-- The neighbours u of v (predecessor or successor) with u greater than
v, i.e. the pairs the census iterates over (the u <= v pairs are
skipped). -/
def nbrs_gt (G : Digraph) (v : ℕ) : List ℕ :=
  (List.range G.n).filter (fun u => (G.adj v u || G.adj u v) && decide (v < u))

/-- The candidate third nodes for the pair (v, u): the union of both
neighbourhoods minus the two endpoints. -/
def triple_neighbors (G : Digraph) (v u : ℕ) : List ℕ :=
  (List.range G.n).filter
    (fun w => (G.adj v w || G.adj w v || G.adj u w || G.adj w u)
      && decide (w ≠ u) && decide (w ≠ v))

/-- The ordering rule deciding whether the triple (v, u, w) is counted at
this visit. -/
def count_cond (G : Digraph) (v u w : ℕ) : Bool :=
  decide (u < w) || (decide (v < w) && decide (w < u) && !(G.adj v w) && !(G.adj w v))

/-- The all-zero census the algorithm starts from. -/
def czero : Triad → ℤ := fun _ => 0

/-- Add k to the count of class t. -/
def inc (c : Triad → ℤ) (t : Triad) (k : ℤ) : Triad → ℤ :=
  fun s => if s = t then c s + k else c s

/-- The inner w-loop of the census: count each surviving connected
triple under its tricode class. -/
def count_triples (G : Digraph) (c : Triad → ℤ) (v u : ℕ) : Triad → ℤ :=
  (triple_neighbors G v u).foldl
    (fun c w =>
      if count_cond G v u w then inc c (tricode_to_name (tricode G v u w)) 1 else c) c

/-- _count_connected from triadic_census. -/
def count_connected (G : Digraph) : Triad → ℤ :=
  (List.range G.n).foldl
    (fun c v => (nbrs_gt G v).foldl (fun c u => count_triples G c v u) c) czero

/-- The dyadic contribution of the pair (v, u) in _count_disconnected: a
mutual pair contributes to class 102, any other counted pair to class
012, with weight n minus the shared neighbourhood size minus 2. -/
def dyad_inc (G : Digraph) (c : Triad → ℤ) (v u : ℕ) : Triad → ℤ :=
  if G.adj u v && G.adj v u then
    inc c .t102 ((G.n : ℤ) - (triple_neighbors G v u).length - 2)
  else
    inc c .t012 ((G.n : ℤ) - (triple_neighbors G v u).length - 2)

/-- _count_disconnected from triadic_census. -/
def count_disconnected_loop (G : Digraph) : Triad → ℤ :=
  (List.range G.n).foldl
    (fun c v =>
      (nbrs_gt G v).foldl (fun c u => count_triples G (dyad_inc G c v u) v u) c) czero

/-- Sum of all sixteen class counts of a census. -/
def census_total (c : Triad → ℤ) : ℤ := (triad_names.map c).sum

/-- triadic_census with count_disconnected=True: after the counting
loops, class 003 is set to C(n,3) minus the sum of all current counts. -/
def triadic_census_disconnected (G : Digraph) : Triad → ℤ :=
  let c := count_disconnected_loop G
  fun t =>
    if t = .t003 then ((G.n * (G.n - 1) * (G.n - 2)) / 6 : ℕ) - census_total c else c t

/-- The 13 connected triad classes, the keys of the census returned with
count_disconnected=False. -/
def connected_names : List Triad :=
  [.t021D, .t021U, .t021C, .t111D, .t111U, .t030T, .t030C, .t201,
   .t120D, .t120U, .t120C, .t210, .t300]

/-- The directed 3-cycle on nodes 0, 1, 2. -/
def cycle3 : Digraph :=
  ⟨3, fun a b => (a == 0 && b == 1) || (a == 1 && b == 2) || (a == 2 && b == 0)⟩

/-! ## Kernighan-Lin refinement (algorithms.py, lines 42-72) -/

/-- Maximum of a list of rationals, the value numpy trials.max() returns
on a nonempty array. -/
def listMax : List ℚ → Option ℚ
  | [] => none
  | x :: xs =>
    match listMax xs with
    | none => some x
    | some m => some (max x m)

/-- The quadratic form dot(s, dot(b, s)) of a sign vector s against an
n-by-n matrix b, where n is the length of s. -/
def quadform (b : ℕ → ℕ → ℚ) (s : List ℤ) : ℚ :=
  ((List.range s.length).map (fun i =>
    ((List.range s.length).map (fun j =>
      (s.getD i 0 : ℚ) * b i j * (s.getD j 0 : ℚ))).sum)).sum

/-- Negate the i-th entry of the state vector, the flip the refinement
evaluates and possibly applies. -/
def flipAt (s : List ℤ) (i : ℕ) : List ℤ := s.set i (-(s.getD i 0))

/-- The trial values of one pass: for each index i, the quadratic form
obtained by flipping entry i in isolation. -/
def klTrials (b : ℕ → ℕ → ℚ) (s : List ℤ) : List ℚ :=
  (List.range s.length).map (fun i => quadform b (flipAt s i))

/-- The while loop of kernighan_lin_refinement, with explicit fuel.  Each
pass computes all single-flip trial values; if the best trial strictly
beats the current value q_max, the first best flip is applied (numpy
argmax returns the first maximising index) and the loop repeats,
otherwise the loop breaks and yields the current state vector.  An empty
state vector would make numpy trials.max() raise; it is modelled as an
immediate break. -/
def klLoop (b : ℕ → ℕ → ℚ) : ℕ → List ℤ → ℚ → Option (List ℤ)
  | 0, _, _ => none
  | fuel + 1, s, qmax =>
    match listMax (klTrials b s) with
    | none => some s
    | some dq =>
      if qmax < dq then klLoop b fuel (flipAt s ((klTrials b s).indexOf dq)) dq
      else some s

/-- All sign vectors of length n with entries 1 and -1. -/
def signVecs : ℕ → List (List ℤ)
  | 0 => [[]]
  | n + 1 => (signVecs n).foldr (fun v acc => (1 :: v) :: ((-1) :: v) :: acc) []

/-- Number of sign vectors of the length of s whose quadratic form
strictly exceeds that of s; a strictly decreasing measure of the loop. -/
def klMeasure (b : ℕ → ℕ → ℚ) (s : List ℤ) : ℕ :=
  ((signVecs s.length).filter (fun t => decide (quadform b s < quadform b t))).length

/-- kernighan_lin_refinement run with sufficient fuel: the returned
vector of the loop, with the input vector as the (unreached) out-of-fuel
fallback. -/
def kernighan_lin_refinement (b : ℕ → ℕ → ℚ) (s : List ℤ) : List ℤ :=
  (klLoop b (klMeasure b s + 1) s (quadform b s)).getD s

/-! ## Spectral community detection (algorithms.py, lines 74-170)

The graph is undirected: the required node set is 0 .. n-1 (per the
docstring), so nbunch = sorted(graph.nodes()) is the index range and the
index-to-node mapping is the identity.  The dominant eigenvector numpy
computes for each working subset is an oracle parameter. -/

/-- Degree of node i (row sum of the 0/1 adjacency matrix). -/
def gdegree (G : Digraph) (i : ℕ) : ℚ :=
  ((List.range G.n).filter (fun j => G.adj i j)).length

/-- Number of undirected edges: adjacent unordered pairs. -/
def gsize (G : Digraph) : ℕ :=
  ((List.range G.n).map
    (fun i => ((List.range G.n).filter (fun j => decide (i < j) && G.adj i j)).length)).sum

/-- m2 = graph.size() * 2.0. -/
def m2 (G : Digraph) : ℚ := 2 * gsize G

/-- m4 = m2 * 2.0, the normaliser of dQ. -/
def m4 (G : Digraph) : ℚ := 2 * m2 G

/-- The modularity matrix b = adj - outer(degrees, degrees) / m2. -/
def modularity_matrix (G : Digraph) (i j : ℕ) : ℚ :=
  (if G.adj i j then 1 else 0) - gdegree G i * gdegree G j / m2 G

/-- The principal submatrix of b on the working subset nbunch (indexed
by positions into nbunch). -/
def sub_matrix (G : Digraph) (nbunch : List ℕ) (i j : ℕ) : ℚ :=
  modularity_matrix G (nbunch.getD i 0) (nbunch.getD j 0)

/-- The adjusted submatrix: each diagonal entry is decreased by its own
(unmodified) row sum, making all rows sum to zero within the subset. -/
def sub_b (G : Digraph) (nbunch : List ℕ) (i j : ℕ) : ℚ :=
  if i = j then
    sub_matrix G nbunch i i -
      ((List.range nbunch.length).map (fun k => sub_matrix G nbunch i k)).sum
  else sub_matrix G nbunch i j

/-- The real parts of the oracle eigenvector for the working subset,
taken at the subset's positions. -/
def split_ev (oracle : List ℕ → List ℚ) (nbunch : List ℕ) : List ℚ :=
  (List.range nbunch.length).map (fun i => (oracle nbunch).getD i 0)

/-- The initial sign vector of a split, before refinement. -/
def split_s0 (oracle : List ℕ → List ℚ) (nbunch : List ℕ) : List ℤ :=
  sign_vector (split_ev oracle nbunch)

/-- The sign vector used for grouping: refined in place when refinement
is requested, otherwise the initial sign vector. -/
def split_s1 (G : Digraph) (oracle : List ℕ → List ℚ) (refine : Bool)
    (nbunch : List ℕ) : List ℤ :=
  if refine then kernighan_lin_refinement (sub_b G nbunch) (split_s0 oracle nbunch)
  else split_s0 oracle nbunch

/-- The accumulated gain of an accepted split: recomputed after
refinement when refinement is requested. -/
def split_dq1 (G : Digraph) (oracle : List ℕ → List ℚ) (refine : Bool)
    (nbunch : List ℕ) : ℚ :=
  if refine then quadform (sub_b G nbunch) (split_s1 G oracle refine nbunch) / m4 G
  else quadform (sub_b G nbunch) (split_s0 oracle nbunch) / m4 G

/-- _split from spectral_community_detection: derive the sign vector of
the dominant eigenvector (whose real parts the oracle provides), compute
dQ; if dQ is at most the error margin the subset is terminal (none),
otherwise refine when requested, recompute dQ, and partition the subset
by sign (group1 the strictly positive signs, group2 the rest). -/
def split_subset (G : Digraph) (oracle : List ℕ → List ℚ) (margin : ℚ) (refine : Bool)
    (nbunch : List ℕ) : Option (List ℕ × List ℕ × ℚ) :=
  if quadform (sub_b G nbunch) (split_s0 oracle nbunch) / m4 G ≤ margin then none
  else
    some (((nbunch.zip (split_s1 G oracle refine nbunch)).filter
            (fun p => decide (0 < p.2))).map Prod.fst,
          ((nbunch.zip (split_s1 G oracle refine nbunch)).filter
            (fun p => !decide (0 < p.2))).map Prod.fst,
          split_dq1 G oracle refine nbunch)

/-- The FIFO work-queue loop of spectral_community_detection, with
explicit fuel: pop a subset, skip it when empty, emit it as a community
when terminal, otherwise enqueue both halves and accumulate the gain. -/
def detect_loop (G : Digraph) (oracle : List ℕ → List ℚ) (margin : ℚ) (refine : Bool) :
    ℕ → List (List ℕ) → ℚ → List (List ℕ) → Option (ℚ × List (List ℕ))
  | 0, _, _, _ => none
  | _ + 1, [], q, comms => some (q, comms)
  | fuel + 1, nbunch :: rest, q, comms =>
    if nbunch.isEmpty then detect_loop G oracle margin refine fuel rest q comms
    else
      match split_subset G oracle margin refine nbunch with
      | none => detect_loop G oracle margin refine fuel rest q (comms ++ [nbunch])
      | some (g1, g2, dq) =>
        detect_loop G oracle margin refine fuel (rest ++ [g1, g2]) (q + dq) comms

/-- spectral_community_detection: reject an empty or edgeless graph,
then run the queue loop from the full index set with zero accumulated
modularity. -/
def spectral_community_detection (G : Digraph) (oracle : List ℕ → List ℚ) (margin : ℚ)
    (refine : Bool) (fuel : ℕ) : Option (ℚ × List (List ℕ)) :=
  if G.n = 0 ∨ gsize G = 0 then none
  else detect_loop G oracle margin refine fuel [List.range G.n] 0 []

/-- The 2-path graph: one undirected edge between nodes 0 and 1. -/
def path2 : Digraph := ⟨2, fun a b => (a == 0 && b == 1) || (a == 1 && b == 0)⟩

/-! ## Network rewiring (randomisation.py)

The networkx DiGraph is modelled as a finite set of directed edges
(pairs of node ids); the edge-category arrays of the rewiring engine are
lists with in-place positional overwrite.  The random draws of the
switching loop are modelled as an oblivious decision list: each decision
selects a category and two row indices, exactly the data the Python loop
draws, so every execution of the loop corresponds to one decision
list. -/

/-- A directed edge. -/
abbrev Edge : Type := ℕ × ℕ

/-- check_standard from randomisation.py: the standard legality policy,
rejecting identical draws, self-link creation, parallel-edge creation
and any change of reciprocity class. -/
def check_standard (g : Finset Edge) (first second : Edge) : Bool :=
  if first = second then false
  else if first.1 = second.2 then false
  else if second.1 = first.2 then false
  else if (first.1, second.2) ∈ g then false
  else if (second.1, first.2) ∈ g then false
  else if (second.2, first.1) ∈ g then false
  else if (first.2, second.1) ∈ g then false
  else true

/-- Graph effect of _switch_single: add the two crossed edges, then
remove the two old ones (networkx add_edge then remove_edge order). -/
def switch_single_graph (g : Finset Edge) (f s : Edge) : Finset Edge :=
  ((insert (s.1, f.2) (insert (f.1, s.2) g)).erase f).erase s

/-- Graph effect of _switch_double: add the four crossed edges of the
two new reciprocal pairs, then remove the four old directed edges. -/
def switch_double_graph (g : Finset Edge) (f s : Edge) : Finset Edge :=
  ((((insert (s.2, f.1) (insert (f.2, s.1) (insert (s.1, f.2)
    (insert (f.1, s.2) g)))).erase f).erase ((f.2, f.1) : Edge)).erase s).erase
    ((s.2, s.1) : Edge)

/-- State of the rewiring engine: the current graph and the two standard
edge categories (arity-1 unidirectional rows and arity-2 bidirectional
rows). -/
structure RWState where
  g : Finset Edge
  uni : List Edge
  bi : List Edge

/-- _switch_single on the unidirectional category: if the legality check
passes for the two drawn rows, rewire the graph and overwrite the two
rows in place. -/
def switch_single (st : RWState) (u v : ℕ) : RWState :=
  if check_standard st.g (st.uni.getD u (0, 0)) (st.uni.getD v (0, 0)) then
    { g := switch_single_graph st.g (st.uni.getD u (0, 0)) (st.uni.getD v (0, 0)),
      uni := (st.uni.set u ((st.uni.getD u (0, 0)).1, (st.uni.getD v (0, 0)).2)).set v
        ((st.uni.getD v (0, 0)).1, (st.uni.getD u (0, 0)).2),
      bi := st.bi }
  else st

/-- Search for the position of an edge value in a category array (the
numpy nonzero search of _switch_double). -/
def edgeIndexOf (l : List Edge) (e : Edge) : ℕ :=
  @List.indexOf Edge instBEqOfDecidableEq e l

/-- _switch_double on the bidirectional category: the reverse rows are
located by value (the numpy nonzero search; unique under the group
invariant), then the graph and the four rows are rewired. -/
def switch_double (st : RWState) (u v : ℕ) : RWState :=
  if check_standard st.g (st.bi.getD u (0, 0)) (st.bi.getD v (0, 0)) then
    { g := switch_double_graph st.g (st.bi.getD u (0, 0)) (st.bi.getD v (0, 0)),
      uni := st.uni,
      bi := (((st.bi.set u ((st.bi.getD u (0, 0)).1, (st.bi.getD v (0, 0)).2)).set v
          ((st.bi.getD v (0, 0)).1, (st.bi.getD u (0, 0)).2)).set
          (edgeIndexOf st.bi ((st.bi.getD u (0, 0)).2, (st.bi.getD u (0, 0)).1))
          ((st.bi.getD u (0, 0)).2, (st.bi.getD v (0, 0)).1)).set
          (edgeIndexOf st.bi ((st.bi.getD v (0, 0)).2, (st.bi.getD v (0, 0)).1))
          ((st.bi.getD v (0, 0)).2, (st.bi.getD u (0, 0)).1) }
  else st

/-- One switching attempt of the randomise loop: a category draw and two
row draws (bounded by the category size, as numpy random_integers is). -/
inductive RWStep : RWState → RWState → Prop where
  | single (st : RWState) (u v : ℕ) (hu : u < st.uni.length) (hv : v < st.uni.length) :
      RWStep st (switch_single st u v)
  | double (st : RWState) (u v : ℕ) (hu : u < st.bi.length) (hv : v < st.bi.length) :
      RWStep st (switch_double st u v)

/-- standard_directed_groups: iterating the edge list, edges with no
reverse partner form the arity-1 category, reciprocal edges the arity-2
category. -/
def standard_groups (l : List Edge) : RWState :=
  { g := l.toFinset,
    uni := l.filter (fun e => decide ((e.2, e.1) ∉ l.toFinset)),
    bi := l.filter (fun e => decide ((e.2, e.1) ∈ l.toFinset)) }

/-- The invariant maintained by the rewiring engine under the standard
policy: the graph is loopless, the arity-1 rows are exactly
unidirectional current edges, the arity-2 rows are bidirectional current
edges closed under reversal, and rows are duplicate-free. -/
def Inv (st : RWState) : Prop :=
  (∀ e ∈ st.g, e.1 ≠ e.2) ∧
  (∀ e ∈ st.uni, e ∈ st.g ∧ (e.2, e.1) ∉ st.g) ∧
  (∀ e ∈ st.bi, e ∈ st.g ∧ (e.2, e.1) ∈ st.g) ∧
  st.uni.Nodup ∧ st.bi.Nodup ∧
  (∀ e ∈ st.bi, (e.2, e.1) ∈ st.bi)

/-- Number of edges leaving x. -/
def out_degree (g : Finset Edge) (x : ℕ) : ℕ := (g.filter (fun e => e.1 = x)).card

/-- Number of edges entering x. -/
def in_degree (g : Finset Edge) (x : ℕ) : ℕ := (g.filter (fun e => e.2 = x)).card

/-- Input to randomise: the edge list of the graph (duplicate-free for a
simple networkx DiGraph) together with the multigraph flag of the input
object (a networkx multigraph is a distinct graph type). -/
structure InGraph where
  edges : List Edge
  isMulti : Bool

/-- Expected number of attempts of one category: flip * weight * size
when the size exceeds the arity weight, otherwise the category is never
drawn. -/
def expected_flips (flip len weight : ℕ) : ℕ :=
  if weight < len then flip * weight * len else 0

/-- One decision of the randomise loop: the drawn category (true for the
arity-1 category) and the two row draws, reduced modulo the category
size as the bounded numpy draw guarantees. -/
def apply_decision (st : RWState) (d : Bool × ℕ × ℕ) : RWState × ℕ :=
  if d.1 then
    if st.uni.length = 0 then (st, 0)
    else
      let u := d.2.1 % st.uni.length
      let v := d.2.2 % st.uni.length
      (switch_single st u v,
        if check_standard st.g (st.uni.getD u (0, 0)) (st.uni.getD v (0, 0)) then 1 else 0)
  else
    if st.bi.length = 0 then (st, 0)
    else
      let u := d.2.1 % st.bi.length
      let v := d.2.2 % st.bi.length
      (switch_double st u v,
        if check_standard st.g (st.bi.getD u (0, 0)) (st.bi.getD v (0, 0)) then 1 else 0)

/-- The switching loop: apply the decisions in order, counting the
successful switches. -/
def apply_decisions (st : RWState) : List (Bool × ℕ × ℕ) → RWState × ℕ
  | [] => (st, 0)
  | d :: ds =>
    ((apply_decisions (apply_decision st d).1 ds).1,
      (apply_decision st d).2 + (apply_decisions (apply_decision st d).1 ds).2)

/-- NetworkRewiring.randomise: multigraph and empty-graph guards, the
standard categorisation (whose self-loop rejection is the third guard),
the zero-expected-attempts early return, then the switching loop over
exactly the expected number of attempts, and the success ratio. -/
def randomise (G : InGraph) (flip : ℕ) (ds : List (Bool × ℕ × ℕ)) :
    Except String (Finset Edge × ℚ) :=
  if G.isMulti then .error "not defined for multigraphs"
  else if G.edges.length = 0 then .ok (G.edges.toFinset, 0)
  else if ∃ e ∈ G.edges, e.1 = e.2 then
    .error "the standard setup does not allow self-links"
  else
    let st0 := standard_groups G.edges
    let e1 := expected_flips flip st0.uni.length 1
    let e2 := expected_flips flip st0.bi.length 2
    if e1 + e2 = 0 then .ok (G.edges.toFinset, 0)
    else
      let res := apply_decisions st0 (ds.take (e1 + e2))
      .ok (res.1.g, (res.2 : ℚ) / ((e1 + e2 : ℕ) : ℚ))

end EverydayUtils

namespace EverydayUtils

/-- C2: compute_zscore returns (observed - mean) / std with the special
cases: an empty ensemble yields the undefined sentinel, a numerator that
is exactly zero yields 0 regardless of variance, zero variance with a
non-zero numerator yields the signed infinity matching the numerator
sign, and otherwise the value is the numerator divided by the square
root of the variance. -/
theorem compute_zscore_spec (x : ℚ) (r : List ℚ) :
    (r = [] → compute_zscore x r = .undef) ∧
    (r ≠ [] → x - mean r = 0 → compute_zscore x r = .fin 0) ∧
    (r ≠ [] → x - mean r ≠ 0 → variance r = 0 →
      compute_zscore x r = (if x - mean r < 0 then .negInf else .posInf)) ∧
    (r ≠ [] → x - mean r ≠ 0 → variance r ≠ 0 →
      compute_zscore x r = .ratio (x - mean r) (variance r) ∧
      (compute_zscore x r).denote = (x - mean r : ℝ) / Real.sqrt ((variance r : ℚ) : ℝ)) := by
  refine ⟨?_, ?_, ?_, ?_⟩
  · intro h; subst h; rfl
  · intro h h0
    obtain ⟨a, as, rfl⟩ := List.exists_cons_of_ne_nil h
    simp [compute_zscore, h0]
  · intro h h0 hv
    obtain ⟨a, as, rfl⟩ := List.exists_cons_of_ne_nil h
    simp [compute_zscore, h0, hv]
  · intro h h0 hv
    obtain ⟨a, as, rfl⟩ := List.exists_cons_of_ne_nil h
    have hc : compute_zscore x (a :: as) = .ratio (x - mean (a :: as)) (variance (a :: as)) := by
      simp [compute_zscore, h0, hv]
    refine ⟨hc, ?_⟩
    rw [hc]
    simp only [ZValue.denote]
    push_cast
    ring_nf

/-- Witness for C2 on the concrete inputs demanded by the spec. -/
theorem compute_zscore_spec_witness :
    compute_zscore 5 [5, 5, 5] = .fin 0 ∧
    compute_zscore 5 [2, 2, 2] = .posInf ∧
    compute_zscore 5 [] = .undef ∧
    compute_zscore 5 [1, 2, 3] = .ratio (5 - mean [1, 2, 3]) (variance [1, 2, 3]) := by
  refine ⟨?_, ?_, ?_, ?_⟩
  · exact (compute_zscore_spec 5 [5, 5, 5]).2.1 (by simp)
      (by norm_num [mean, List.sum_cons, List.sum_nil])
  · have h := (compute_zscore_spec 5 [2, 2, 2]).2.2.1 (by simp)
      (by norm_num [mean, List.sum_cons, List.sum_nil])
      (by norm_num [variance, mean, List.sum_cons, List.sum_nil])
    rw [h]
    norm_num [mean, List.sum_cons, List.sum_nil]
  · exact (compute_zscore_spec 5 []).1 rfl
  · exact ((compute_zscore_spec 5 [1, 2, 3]).2.2.2 (by simp)
      (by norm_num [mean, List.sum_cons, List.sum_nil])
      (by norm_num [variance, mean, List.sum_cons, List.sum_nil])).1

/-- C1 counterexample: the sign vector derived from the real parts by the
expression 1 if x > 0 else -1 maps a zero entry to -1, not to +1 as the
claim states. -/
theorem sign_vector_zero_counterexample :
    sign_vector [0] = [-1] ∧ sign_vector [0] ≠ [1] := by decide

/-- C1 (amended): the sign vector assigns -1 to every entry whose real
part is zero or strictly negative, and +1 exactly to the strictly
positive entries. -/
theorem sign_vector_spec (v : List ℚ) (i : ℕ) (h : i < v.length) :
    ((sign_vector v).getD i 0 = -1 ↔ v.getD i 0 ≤ 0) ∧
    ((sign_vector v).getD i 0 = 1 ↔ 0 < v.getD i 0) := by
  have hm : i < (sign_vector v).length := by simpa [sign_vector] using h
  rw [List.getD_eq_getElem _ _ hm, List.getD_eq_getElem _ _ h]
  simp only [sign_vector, List.getElem_map]
  constructor
  · constructor
    · intro he; by_contra hlt
      rw [if_pos (lt_of_not_le hlt)] at he; exact absurd he (by decide)
    · intro hle; rw [if_neg (not_lt.mpr hle)]
  · constructor
    · intro he; by_contra hlt
      rw [if_neg hlt] at he; exact absurd he (by decide)
    · intro hlt; rw [if_pos hlt]

/-- Witness for the amended C1 at the zero entry. -/
theorem sign_vector_spec_witness :
    ((sign_vector [(0 : ℚ)]).getD 0 0 = -1 ↔ ([(0 : ℚ)].getD 0 0 ≤ 0)) ∧
    ((sign_vector [(0 : ℚ)]).getD 0 0 = 1 ↔ (0 < [(0 : ℚ)].getD 0 0)) :=
  sign_vector_spec [0] 0 (by decide)

/-! ## Triadic census theorems -/

/-- A foldl preserves a predicate that every step preserves. -/
theorem foldl_pres {α β : Type} {P : α → Prop} {f : α → β → α} :
    ∀ {l : List β}, (∀ a b, b ∈ l → P a → P (f a b)) → ∀ a, P a → P (l.foldl f a) := by
  intro l
  induction l with
  | nil => intro _ a ha; exact ha
  | cons b t ih =>
    intro h a ha
    exact ih (fun a x hx => h a x (List.mem_cons_of_mem b hx)) (f a b)
      (h a b (List.mem_cons_self b t) ha)

/-- Incrementing one class leaves the other classes unchanged. -/
theorem inc_apply_ne {c : Triad → ℤ} {t s : Triad} {k : ℤ} (h : s ≠ t) :
    inc c t k s = c s := by simp [inc, h]

/-- Incrementing one class adds its weight to the census total. -/
theorem census_total_inc (c : Triad → ℤ) (t : Triad) (k : ℤ) :
    census_total (inc c t k) = census_total c + k := by
  cases t <;> simp [census_total, triad_names, inc, List.sum_cons] <;> ring

/-- A tricode of a counted pair is at least 1: one of the two links
between v and u is present. -/
theorem tricode_pos {G : Digraph} {v u : ℕ} (h : G.adj v u = true ∨ G.adj u v = true)
    (w : ℕ) : 1 ≤ tricode G v u w := by
  unfold tricode
  rcases h with h | h
  · rw [h]
    have h1 : (1 : ℕ) ≤ (if true = true then 1 else 0) := by simp
    omega
  · rw [h]
    have h1 : (1 : ℕ) ≤ (if true = true then 2 else 0) := by simp
    omega

/-- Every tricode is below 64. -/
theorem tricode_lt (G : Digraph) (v u w : ℕ) : tricode G v u w < 64 := by
  unfold tricode
  split_ifs <;> norm_num

/-- A nonzero tricode never maps to the empty class 003. -/
theorem tricode_to_name_ne_t003 : ∀ code, 1 ≤ code → code < 64 →
    tricode_to_name code ≠ .t003 := by decide

/-- Members of nbrs_gt are joined to v by at least one link. -/
theorem nbrs_gt_adj {G : Digraph} {v u : ℕ} (h : u ∈ nbrs_gt G v) :
    G.adj v u = true ∨ G.adj u v = true := by
  have := List.of_mem_filter h
  have hb : (G.adj v u || G.adj u v) = true := by
    cases hvu : G.adj v u <;> cases huv : G.adj u v <;> simp_all
  simpa using hb

/-- The counting loops never touch class 003. -/
theorem count_disconnected_loop_t003 (G : Digraph) :
    count_disconnected_loop G .t003 = 0 := by
  unfold count_disconnected_loop
  refine foldl_pres (P := fun c : Triad → ℤ => c .t003 = 0) ?_ czero rfl
  intro c v _ hc
  refine foldl_pres (P := fun c : Triad → ℤ => c .t003 = 0) ?_ c hc
  intro c u hu hc
  have hadj := nbrs_gt_adj hu
  have hdy : dyad_inc G c v u .t003 = 0 := by
    unfold dyad_inc
    split_ifs <;> rw [inc_apply_ne (by decide)] <;> exact hc
  unfold count_triples
  refine foldl_pres (P := fun c : Triad → ℤ => c .t003 = 0) ?_ _ hdy
  intro c w _ hc
  split_ifs with hcond
  · rw [inc_apply_ne
      (Ne.symm (tricode_to_name_ne_t003 _ (tricode_pos hadj w) (tricode_lt G v u w)))]
    exact hc
  · exact hc

/-- C3: for every simple directed graph without self-loops, the sixteen
class counts of the census with count_disconnected=True sum to exactly
C(n,3) = n(n-1)(n-2)/6, since class 003 is finally set to the complement
of all other counts and the counting loops leave 003 untouched. -/
theorem triadic_census_disconnected_sum (G : Digraph) (h : G.loopless) :
    census_total (triadic_census_disconnected G) =
      ((G.n * (G.n - 1) * (G.n - 2)) / 6 : ℕ) := by
  have h003 := count_disconnected_loop_t003 G
  simp [triadic_census_disconnected, census_total, triad_names, h003]

/-- Witness for C3 on the directed 3-cycle. -/
theorem triadic_census_disconnected_sum_witness :
    cycle3.loopless ∧
    census_total (triadic_census_disconnected cycle3) =
      ((cycle3.n * (cycle3.n - 1) * (cycle3.n - 2)) / 6 : ℕ) :=
  have h : ∀ v < cycle3.n, cycle3.adj v v = false := by decide
  ⟨h, triadic_census_disconnected_sum cycle3 h⟩

/-- C8: on the directed 3-cycle 0 to 1 to 2 to 0, the connected-only
census counts exactly one triad of class 030C and zero of each of the
other twelve connected classes. -/
theorem count_connected_cycle3 :
    count_connected cycle3 .t030C = 1 ∧
    ∀ t ∈ connected_names, t ≠ .t030C → count_connected cycle3 t = 0 := by decide

/-! ## Kernighan-Lin refinement theorems -/

/-- The maximum of a nonempty list is one of its elements. -/
theorem listMax_mem : ∀ {l : List ℚ} {m : ℚ}, listMax l = some m → m ∈ l := by
  intro l
  induction l with
  | nil => intro m h; cases h
  | cons x xs ih =>
    intro m h
    rw [listMax] at h
    cases hxs : listMax xs with
    | none => rw [hxs] at h; injection h with h; exact h ▸ List.mem_cons_self x xs
    | some m2 =>
      rw [hxs] at h; injection h with h; subst h
      rcases max_choice x m2 with h | h <;> rw [h]
      · exact List.mem_cons_self x xs
      · exact List.mem_cons_of_mem x (ih hxs)

/-- The maximum is none exactly on the empty list. -/
theorem listMax_eq_none : ∀ {l : List ℚ}, listMax l = none → l = [] := by
  intro l h
  cases l with
  | nil => rfl
  | cons x xs =>
    rw [listMax] at h
    cases hxs : listMax xs <;> rw [hxs] at h <;> cases h

/-- Every element is at most the maximum of the list. -/
theorem le_listMax : ∀ {l : List ℚ} {m : ℚ}, listMax l = some m → ∀ x ∈ l, x ≤ m := by
  intro l
  induction l with
  | nil => intro m _ x hx; cases hx
  | cons y xs ih =>
    intro m h x hx
    rw [listMax] at h
    cases hxs : listMax xs with
    | none =>
      rw [hxs] at h; injection h with h; subst h
      rcases List.mem_cons.mp hx with rfl | hx
      · exact le_refl x
      · rw [listMax_eq_none hxs] at hx; cases hx
    | some m2 =>
      rw [hxs] at h; injection h with h; subst h
      rcases List.mem_cons.mp hx with rfl | hx
      · exact le_max_left _ _
      · exact le_trans (ih hxs x hx) (le_max_right _ _)

/-- Flipping preserves the vector length. -/
theorem length_flipAt (s : List ℤ) (i : ℕ) : (flipAt s i).length = s.length :=
  List.length_set s i _

/-- Flipping preserves signedness of the entries. -/
theorem flipAt_sign {s : List ℤ} (hs : ∀ x ∈ s, x = 1 ∨ x = -1) (i : ℕ) :
    ∀ x ∈ flipAt s i, x = 1 ∨ x = -1 := by
  intro x hx
  by_cases hi : i < s.length
  · rcases List.mem_or_eq_of_mem_set hx with h | h
    · exact hs x h
    · have hmem : s.getD i 0 ∈ s := by
        rw [List.getD_eq_getElem s 0 hi]
        exact List.getElem_mem hi
      rcases hs _ hmem with h1 | h1 <;> rw [h, h1] <;> simp
  · rw [flipAt, List.set_eq_of_length_le (le_of_not_lt hi)] at hx
    exact hs x hx

/-- Membership in signVecs characterises sign vectors. -/
theorem mem_signVecs : ∀ {n : ℕ} {t : List ℤ},
    t ∈ signVecs n ↔ t.length = n ∧ ∀ x ∈ t, x = 1 ∨ x = -1 := by
  intro n
  induction n with
  | zero =>
    intro t
    constructor
    · intro h
      have ht : t = [] := by simpa [signVecs] using h
      subst ht
      exact ⟨rfl, fun x hx => absurd hx (List.not_mem_nil x)⟩
    · rintro ⟨h, _⟩
      simp [signVecs, List.length_eq_zero.mp h]
  | succ n ih =>
    intro t
    have hfold : ∀ (L : List (List ℤ)) (u : List ℤ),
        u ∈ L.foldr (fun v acc => ((1 : ℤ) :: v) :: ((-1 : ℤ) :: v) :: acc) [] ↔
        ∃ v ∈ L, u = (1 : ℤ) :: v ∨ u = (-1 : ℤ) :: v := by
      intro L
      induction L with
      | nil => intro u; simp
      | cons w ws ihw =>
        intro u
        constructor
        · intro hu
          rw [List.foldr_cons] at hu
          rcases List.mem_cons.mp hu with rfl | hu
          · exact ⟨w, List.mem_cons_self w ws, Or.inl rfl⟩
          · rcases List.mem_cons.mp hu with rfl | hu
            · exact ⟨w, List.mem_cons_self w ws, Or.inr rfl⟩
            · obtain ⟨v, hv, hor⟩ := (ihw u).mp hu
              exact ⟨v, List.mem_cons_of_mem w hv, hor⟩
        · rintro ⟨v, hv, hor⟩
          rw [List.foldr_cons]
          rcases List.mem_cons.mp hv with rfl | hv
          · rcases hor with rfl | rfl
            · exact List.mem_cons_self _ _
            · exact List.mem_cons_of_mem _ (List.mem_cons_self _ _)
          · exact List.mem_cons_of_mem _ (List.mem_cons_of_mem _ ((ihw u).mpr ⟨v, hv, hor⟩))
    rw [signVecs, hfold]
    constructor
    · rintro ⟨v, hv, rfl | rfl⟩ <;>
        obtain ⟨hlen, hsgn⟩ := ih.mp hv <;>
        refine ⟨by simp [hlen], ?_⟩ <;>
        intro x hx <;> rcases List.mem_cons.mp hx with rfl | hx
      · left; rfl
      · exact hsgn x hx
      · right; rfl
      · exact hsgn x hx
    · rintro ⟨hlen, hsgn⟩
      cases t with
      | nil => cases hlen
      | cons a v =>
        have hv : v ∈ signVecs n := ih.mpr ⟨by simpa using hlen,
          fun x hx => hsgn x (List.mem_cons_of_mem a hx)⟩
        rcases hsgn a (List.mem_cons_self a v) with rfl | rfl
        · exact ⟨v, hv, Or.inl rfl⟩
        · exact ⟨v, hv, Or.inr rfl⟩

/-- Filtering with a weaker predicate keeps at least as many elements. -/
theorem filter_length_le {α : Type} {p q : α → Bool} :
    ∀ {l : List α}, (∀ x ∈ l, p x = true → q x = true) →
      (l.filter p).length ≤ (l.filter q).length := by
  intro l
  induction l with
  | nil => intro _; simp
  | cons a t ih =>
    intro h
    have ht := ih (fun x hx => h x (List.mem_cons_of_mem a hx))
    by_cases hpa : p a = true
    · rw [List.filter_cons_of_pos hpa, List.filter_cons_of_pos (h a (List.mem_cons_self a t) hpa)]
      simpa using ht
    · rw [List.filter_cons_of_neg (by simpa using hpa)]
      cases hqa : q a
      · rw [List.filter_cons_of_neg (by simp [hqa])]; exact ht
      · rw [List.filter_cons_of_pos hqa]
        exact le_trans ht (by simp)

/-- Filtering with a strictly weaker predicate (witnessed by an element
satisfying only the weaker one) keeps strictly more elements. -/
theorem filter_length_lt {α : Type} {p q : α → Bool} :
    ∀ {l : List α} {y : α}, (∀ x ∈ l, p x = true → q x = true) → y ∈ l →
      q y = true → p y = false →
      (l.filter p).length < (l.filter q).length := by
  intro l
  induction l with
  | nil => intro x0 _ hx0; cases hx0
  | cons a t ih =>
    intro x0 h hx0 hq hp
    rcases List.mem_cons.mp hx0 with rfl | hx0
    · rw [List.filter_cons_of_neg (by simp [hp]), List.filter_cons_of_pos hq]
      have hle := filter_length_le (p := p) (q := q) (l := t)
        (fun x hx => h x (List.mem_cons_of_mem _ hx))
      simpa [Nat.lt_succ_iff] using hle
    · have ht := ih (fun x hx => h x (List.mem_cons_of_mem a hx)) hx0 hq hp
      by_cases hpa : p a = true
      · rw [List.filter_cons_of_pos hpa, List.filter_cons_of_pos (h a (List.mem_cons_self a t) hpa)]
        simpa using ht
      · rw [List.filter_cons_of_neg (by simpa using hpa)]
        cases hqa : q a
        · rw [List.filter_cons_of_neg (by simp [hqa])]; exact ht
        · rw [List.filter_cons_of_pos hqa]
          exact lt_of_lt_of_le ht (by simp)

/-- The flip applied at the first maximising trial index realises the
maximal trial value, and the index is within range. -/
theorem quadform_flip_indexOf {b : ℕ → ℕ → ℚ} {s : List ℤ} {dq : ℚ}
    (h : listMax (klTrials b s) = some dq) :
    quadform b (flipAt s ((klTrials b s).indexOf dq)) = dq ∧
      (klTrials b s).indexOf dq < s.length := by
  have hm := listMax_mem h
  have hlt : (klTrials b s).indexOf dq < (klTrials b s).length :=
    List.indexOf_lt_length.mpr hm
  have hlen : (klTrials b s).length = s.length := by simp [klTrials]
  have hget : (klTrials b s).get ⟨(klTrials b s).indexOf dq, hlt⟩ = dq :=
    List.indexOf_get hlt
  have hmap : ∀ (j : ℕ) (hj : j < (klTrials b s).length),
      (klTrials b s).get ⟨j, hj⟩ = quadform b (flipAt s j) := by
    intro j hj
    simp [klTrials]
  rw [hmap _ hlt] at hget
  exact ⟨hget, hlen ▸ hlt⟩

/-- Along the loop, the quadratic form of the state never decreases. -/
theorem klLoop_quadform_le {b : ℕ → ℕ → ℚ} :
    ∀ {fuel : ℕ} {s : List ℤ} {q : ℚ} {s' : List ℤ}, q = quadform b s →
      klLoop b fuel s q = some s' → quadform b s ≤ quadform b s' := by
  intro fuel
  induction fuel with
  | zero => intro s q s' _ h; cases h
  | succ n ih =>
    intro s q s' hq h
    cases hm : listMax (klTrials b s) with
    | none => simp only [klLoop, hm] at h; injection h with h; rw [h]
    | some dq =>
      simp only [klLoop, hm] at h
      split_ifs at h with hlt
      · obtain ⟨hv, _⟩ := quadform_flip_indexOf hm
        have hrec := ih hv.symm h
        rw [hq] at hlt
        exact le_trans (le_of_lt hlt) (le_of_eq_of_le hv.symm hrec)
      · injection h with h; rw [h]

/-- The loop preserves the state vector length. -/
theorem klLoop_length {b : ℕ → ℕ → ℚ} :
    ∀ {fuel : ℕ} {s : List ℤ} {q : ℚ} {s' : List ℤ},
      klLoop b fuel s q = some s' → s'.length = s.length := by
  intro fuel
  induction fuel with
  | zero => intro s q s' h; cases h
  | succ n ih =>
    intro s q s' h
    cases hm : listMax (klTrials b s) with
    | none => simp only [klLoop, hm] at h; injection h with h; rw [h]
    | some dq =>
      simp only [klLoop, hm] at h
      split_ifs at h with hlt
      · rw [ih h, length_flipAt]
      · injection h with h; rw [h]

/-- The loop preserves signedness of the state entries. -/
theorem klLoop_sign {b : ℕ → ℕ → ℚ} :
    ∀ {fuel : ℕ} {s : List ℤ} {q : ℚ} {s' : List ℤ},
      (∀ x ∈ s, x = 1 ∨ x = -1) → klLoop b fuel s q = some s' →
      ∀ x ∈ s', x = 1 ∨ x = -1 := by
  intro fuel
  induction fuel with
  | zero => intro s q s' _ h; cases h
  | succ n ih =>
    intro s q s' hs h
    cases hm : listMax (klTrials b s) with
    | none =>
      simp only [klLoop, hm] at h
      injection h with h; subst h; exact hs
    | some dq =>
      simp only [klLoop, hm] at h
      split_ifs at h with hlt
      · exact ih (flipAt_sign hs _) h
      · injection h with h; subst h; exact hs

/-- With fuel one more than the measure, the loop reaches its fixpoint:
every applied flip strictly increases the quadratic form, which strictly
shrinks the set of sign vectors of larger value. -/
theorem klLoop_isSome {b : ℕ → ℕ → ℚ} :
    ∀ (k : ℕ) (s : List ℤ), (∀ x ∈ s, x = 1 ∨ x = -1) →
      klMeasure b s ≤ k → (klLoop b (k + 1) s (quadform b s)).isSome = true := by
  intro k
  induction k with
  | zero =>
    intro s hs hk
    cases hm : listMax (klTrials b s) with
    | none => simp only [klLoop, hm, Option.isSome_some]
    | some dq =>
      have hnot : ¬ quadform b s < dq := by
        intro hlt
        obtain ⟨hv, hidx⟩ := quadform_flip_indexOf hm
        have hmem : flipAt s ((klTrials b s).indexOf dq) ∈
            (signVecs s.length).filter (fun t => decide (quadform b s < quadform b t)) := by
          rw [List.mem_filter]
          exact ⟨mem_signVecs.mpr ⟨length_flipAt s _, flipAt_sign hs _⟩,
            by rw [hv]; exact decide_eq_true hlt⟩
        have hpos : 0 < klMeasure b s := by
          rw [klMeasure]
          exact List.length_pos.mpr (fun he => by rw [he] at hmem; cases hmem)
        omega
      simp only [klLoop, hm, if_neg hnot, Option.isSome_some]
  | succ k ih =>
    intro s hs hk
    cases hm : listMax (klTrials b s) with
    | none => simp only [klLoop, hm, Option.isSome_some]
    | some dq =>
      by_cases hlt : quadform b s < dq
      · simp only [klLoop, hm, if_pos hlt]
        obtain ⟨hv, hidx⟩ := quadform_flip_indexOf hm
        have hts := flipAt_sign hs ((klTrials b s).indexOf dq)
        have htlen := length_flipAt s ((klTrials b s).indexOf dq)
        have hmeas : klMeasure b (flipAt s ((klTrials b s).indexOf dq)) < klMeasure b s := by
          rw [klMeasure, klMeasure, htlen]
          refine filter_length_lt (y := flipAt s ((klTrials b s).indexOf dq)) ?_ ?_ ?_ ?_
          · intro x _ hx
            have hx2 := of_decide_eq_true hx
            exact decide_eq_true (lt_trans (by rw [hv]; exact hlt) hx2)
          · exact mem_signVecs.mpr ⟨htlen, hts⟩
          · exact decide_eq_true (by rw [hv]; exact hlt)
          · exact decide_eq_false (lt_irrefl _)
        have hrec := ih (flipAt s ((klTrials b s).indexOf dq)) hts (by omega)
        rw [hv] at hrec
        exact hrec
      · simp only [klLoop, hm, if_neg hlt, Option.isSome_some]

/-- C10: the Kernighan-Lin refinement loop terminates for every sign
vector and matrix: run with fuel one more than its decreasing measure it
reaches the no-improving-flip fixpoint and returns, and the returned
vector's quadratic form is at least the input's. -/
theorem kernighan_lin_refinement_terminates (b : ℕ → ℕ → ℚ) (s : List ℤ)
    (hsign : ∀ x ∈ s, x = 1 ∨ x = -1) :
    ∃ s', klLoop b (klMeasure b s + 1) s (quadform b s) = some s' ∧
      kernighan_lin_refinement b s = s' ∧
      quadform b s ≤ quadform b s' := by
  have h := klLoop_isSome (b := b) (klMeasure b s) s hsign le_rfl
  obtain ⟨s', hs'⟩ := Option.isSome_iff_exists.mp h
  exact ⟨s', hs', by rw [kernighan_lin_refinement, hs']; rfl,
    klLoop_quadform_le rfl hs'⟩

/-- Witness for C10 on a concrete one-entry sign vector and the zero
matrix. -/
theorem kernighan_lin_refinement_terminates_witness :
    ∃ s', klLoop (fun _ _ => (0 : ℚ)) (klMeasure (fun _ _ => (0 : ℚ)) [1] + 1) [1]
        (quadform (fun _ _ => (0 : ℚ)) [1]) = some s' ∧
      kernighan_lin_refinement (fun _ _ => (0 : ℚ)) [1] = s' ∧
      quadform (fun _ _ => (0 : ℚ)) [1] ≤ quadform (fun _ _ => (0 : ℚ)) s' :=
  kernighan_lin_refinement_terminates _ [1] (by decide)

/-- The refinement never decreases the quadratic form (whatever the fuel
outcome). -/
theorem kernighan_lin_refinement_ge (b : ℕ → ℕ → ℚ) (s : List ℤ) :
    quadform b s ≤ quadform b (kernighan_lin_refinement b s) := by
  cases h : klLoop b (klMeasure b s + 1) s (quadform b s) with
  | none => rw [kernighan_lin_refinement, h, Option.getD_none]
  | some s' =>
    rw [kernighan_lin_refinement, h, Option.getD_some]
    exact klLoop_quadform_le rfl h

/-- The refinement preserves the vector length. -/
theorem kernighan_lin_refinement_length (b : ℕ → ℕ → ℚ) (s : List ℤ) :
    (kernighan_lin_refinement b s).length = s.length := by
  cases h : klLoop b (klMeasure b s + 1) s (quadform b s) with
  | none => rw [kernighan_lin_refinement, h, Option.getD_none]
  | some s' =>
    rw [kernighan_lin_refinement, h, Option.getD_some]
    exact klLoop_length h

/-! ## Spectral community detection theorems -/

/-- Splitting a list by a sign predicate on zipped positions is a
permutation of the list. -/
theorem zip_filter_partition (l : List ℕ) (s : List ℤ) (hlen : l.length ≤ s.length) :
    (↑(((l.zip s).filter (fun p => decide (0 < p.2))).map Prod.fst ++
       ((l.zip s).filter (fun p => !decide (0 < p.2))).map Prod.fst) : Multiset ℕ) =
      (↑l : Multiset ℕ) := by
  rw [Multiset.coe_eq_coe, ← List.map_append]
  have hp := (List.filter_append_perm (fun p => decide (0 < p.2)) (l.zip s)).map Prod.fst
  rwa [List.map_fst_zip l s hlen] at hp

/-- The sign vector used for grouping has the subset's length. -/
theorem split_s1_length (G : Digraph) (oracle : List ℕ → List ℚ) (refine : Bool)
    (nbunch : List ℕ) :
    (split_s1 G oracle refine nbunch).length = nbunch.length := by
  cases refine <;>
    simp [split_s1, split_s0, split_ev, kernighan_lin_refinement_length, sign_vector]

/-- A successful split partitions the working subset: together the two
groups hold exactly the subset's elements. -/
theorem split_subset_partition {G : Digraph} {oracle : List ℕ → List ℚ} {margin : ℚ}
    {refine : Bool} {nbunch : List ℕ} {r : List ℕ × List ℕ × ℚ}
    (h : split_subset G oracle margin refine nbunch = some r) :
    (↑(r.1 ++ r.2.1) : Multiset ℕ) = (↑nbunch : Multiset ℕ) := by
  rw [split_subset] at h
  split_ifs at h with hdq
  have h2 := Option.some.inj h
  subst h2
  exact zip_filter_partition nbunch _ (le_of_eq (split_s1_length G oracle refine nbunch).symm)

/-- A successful split yields a strictly positive accumulated gain when
the margin is nonnegative: the pre-refinement gain exceeds the margin
and refinement never lowers the quadratic form. -/
theorem split_subset_dq_pos {G : Digraph} {oracle : List ℕ → List ℚ} {margin : ℚ}
    {refine : Bool} {nbunch : List ℕ} {r : List ℕ × List ℕ × ℚ} (hm4 : 0 < m4 G)
    (hmargin : 0 ≤ margin)
    (h : split_subset G oracle margin refine nbunch = some r) : 0 < r.2.2 := by
  rw [split_subset] at h
  split_ifs at h with hdq
  have h2 := Option.some.inj h
  subst h2
  push_neg at hdq
  cases refine with
  | false =>
    simp only [split_dq1, Bool.false_eq_true, if_false]
    exact lt_of_le_of_lt hmargin hdq
  | true =>
    simp only [split_dq1, split_s1, if_true]
    have hge := kernighan_lin_refinement_ge (sub_b G nbunch) (split_s0 oracle nbunch)
    have hdiv := (div_le_div_iff_of_pos_right hm4).mpr hge
    exact lt_of_le_of_lt hmargin (lt_of_lt_of_le hdq hdiv)

/-- Work-queue invariant: on success, the final communities hold, as a
multiset, exactly the elements of the queue plus the already emitted
communities. -/
theorem detect_loop_join {G : Digraph} {oracle : List ℕ → List ℚ} {margin : ℚ}
    {refine : Bool} :
    ∀ {fuel : ℕ} {queue : List (List ℕ)} {q : ℚ} {comms : List (List ℕ)}
      {r : ℚ × List (List ℕ)},
      detect_loop G oracle margin refine fuel queue q comms = some r →
      (↑r.2.flatten : Multiset ℕ) = ↑queue.flatten + ↑comms.flatten := by
  intro fuel
  induction fuel with
  | zero => intro queue q comms r h; cases h
  | succ n ih =>
    intro queue q comms r h
    cases queue with
    | nil =>
      simp only [detect_loop] at h
      have h2 := Option.some.inj h
      subst h2
      simp
    | cons nbunch rest =>
      simp only [detect_loop] at h
      by_cases he : nbunch.isEmpty
      · rw [if_pos he] at h
        have hmem := ih h
        rw [List.isEmpty_iff] at he
        subst he
        simpa using hmem
      · rw [if_neg he] at h
        cases hs : split_subset G oracle margin refine nbunch with
        | none =>
          simp only [hs] at h
          have hmem := ih h
          rw [hmem]
          simp only [List.flatten_cons, List.flatten_append, List.flatten_nil,
            List.append_nil, ← Multiset.coe_add]
          abel
        | some t =>
          obtain ⟨g1, g2, dq⟩ := t
          simp only [hs] at h
          have hmem := ih h
          have hpart := split_subset_partition hs
          have hgg : (↑g1 : Multiset ℕ) + ↑g2 = ↑nbunch := by
            rw [Multiset.coe_add]
            exact hpart
          rw [hmem]
          simp only [List.flatten_cons, List.flatten_append, List.flatten_nil,
            List.append_nil, ← Multiset.coe_add]
          rw [← hgg]
          abel

/-- Work-queue invariant: the accumulated modularity never decreases,
since every accepted split contributes a strictly positive gain. -/
theorem detect_loop_q_nonneg {G : Digraph} {oracle : List ℕ → List ℚ} {margin : ℚ}
    {refine : Bool} (hm4 : 0 < m4 G) (hmargin : 0 ≤ margin) :
    ∀ {fuel : ℕ} {queue : List (List ℕ)} {q : ℚ} {comms : List (List ℕ)}
      {r : ℚ × List (List ℕ)}, 0 ≤ q →
      detect_loop G oracle margin refine fuel queue q comms = some r → 0 ≤ r.1 := by
  intro fuel
  induction fuel with
  | zero => intro queue q comms r _ h; cases h
  | succ n ih =>
    intro queue q comms r hq h
    cases queue with
    | nil =>
      simp only [detect_loop] at h
      have h2 := Option.some.inj h
      subst h2
      exact hq
    | cons nbunch rest =>
      simp only [detect_loop] at h
      by_cases he : nbunch.isEmpty
      · rw [if_pos he] at h
        exact ih hq h
      · rw [if_neg he] at h
        cases hs : split_subset G oracle margin refine nbunch with
        | none =>
          simp only [hs] at h
          exact ih hq h
        | some t =>
          obtain ⟨g1, g2, dq⟩ := t
          simp only [hs] at h
          have hdq : (0 : ℚ) < dq := split_subset_dq_pos hm4 hmargin hs
          exact ih (by linarith) h

/-- C6: whenever spectral community detection returns, the communities
are pairwise disjoint and their union is exactly the node set
0 .. n-1. -/
theorem spectral_community_detection_partition (G : Digraph) (oracle : List ℕ → List ℚ)
    (margin : ℚ) (refine : Bool) (fuel : ℕ)
    (hund : ∀ i < G.n, ∀ j < G.n, G.adj i j = G.adj j i)
    (hn : 1 ≤ G.n) (hm : 1 ≤ gsize G) (q : ℚ) (comms : List (List ℕ))
    (h : spectral_community_detection G oracle margin refine fuel = some (q, comms)) :
    comms.Pairwise List.Disjoint ∧ ∀ x, (x ∈ comms.flatten ↔ x < G.n) := by
  rw [spectral_community_detection,
    if_neg (by push_neg; exact ⟨by omega, by omega⟩)] at h
  have hj := detect_loop_join h
  have hperm : comms.flatten.Perm (List.range G.n) :=
    Multiset.coe_eq_coe.mp (by simpa using hj)
  have hnd : comms.flatten.Nodup := (hperm.nodup_iff).mpr (List.nodup_range _)
  exact ⟨(List.nodup_flatten.mp hnd).2, fun x => by rw [hperm.mem_iff, List.mem_range]⟩

/-- C7: with a nonnegative error margin, the total modularity returned
by spectral community detection is never negative. -/
theorem spectral_community_detection_modularity_nonneg (G : Digraph)
    (oracle : List ℕ → List ℚ) (margin : ℚ) (refine : Bool) (fuel : ℕ)
    (hmargin : 0 ≤ margin) (hn : 1 ≤ G.n) (hm : 1 ≤ gsize G) (q : ℚ)
    (comms : List (List ℕ))
    (h : spectral_community_detection G oracle margin refine fuel = some (q, comms)) :
    0 ≤ q := by
  have hm4 : 0 < m4 G := by
    have h1 : (1 : ℚ) ≤ (gsize G : ℚ) := by exact_mod_cast hm
    rw [m4, m2]
    linarith
  rw [spectral_community_detection,
    if_neg (by push_neg; exact ⟨by omega, by omega⟩)] at h
  exact detect_loop_q_nonneg hm4 hmargin le_rfl h

/-- The 2-path graph has one undirected edge. -/
theorem gsize_path2 : gsize path2 = 1 := by
  norm_num [gsize, path2, List.range_succ]

/-- On the 2-path with the trivial oracle, the first split is terminal:
the all-negative sign vector has zero gain. -/
theorem split_path2 : split_subset path2 (fun _ => []) 0 true [0, 1] = none := by
  have hev : split_ev (fun _ => ([] : List ℚ)) [0, 1] = [0, 0] := by
    simp [split_ev, List.range_succ]
  have hs0 : split_s0 (fun _ => ([] : List ℚ)) [0, 1] = [-1, -1] := by
    rw [split_s0, hev]
    norm_num [sign_vector]
  have hq : quadform (sub_b path2 [0, 1]) [-1, -1] = 0 := by
    norm_num [quadform, sub_b, sub_matrix, modularity_matrix, gdegree, m2, gsize,
      path2, List.range_succ]
  rw [split_subset, hs0, hq]
  norm_num

/-- Concrete run: on the 2-path the detection returns modularity 0 and
the single community of both nodes. -/
theorem detect_eval_path2 :
    spectral_community_detection path2 (fun _ => []) 0 true 2 = some (0, [[0, 1]]) := by
  rw [spectral_community_detection,
    if_neg (by push_neg; refine ⟨by decide, ?_⟩; rw [gsize_path2]; decide)]
  rw [show List.range path2.n = [0, 1] from rfl]
  rw [show (2 : ℕ) = 1 + 1 from rfl]
  rw [detect_loop]
  rw [if_neg (by decide)]
  rw [split_path2]
  rfl

/-- Witness for C6 on the 2-path graph. -/
theorem spectral_community_detection_partition_witness :
    spectral_community_detection path2 (fun _ => []) 0 true 2 = some (0, [[0, 1]]) ∧
    List.Pairwise List.Disjoint [[0, 1]] ∧ ∀ x, (x ∈ [[0, 1]].flatten ↔ x < path2.n) :=
  ⟨detect_eval_path2,
   (spectral_community_detection_partition path2 (fun _ => []) 0 true 2 (by decide)
     (by decide) (le_of_eq gsize_path2.symm) 0 [[0, 1]] detect_eval_path2).1,
   (spectral_community_detection_partition path2 (fun _ => []) 0 true 2 (by decide)
     (by decide) (le_of_eq gsize_path2.symm) 0 [[0, 1]] detect_eval_path2).2⟩

/-- Witness for C7 on the 2-path graph. -/
theorem spectral_community_detection_modularity_nonneg_witness :
    spectral_community_detection path2 (fun _ => []) 0 true 2 = some (0, [[0, 1]]) ∧
    (0 : ℚ) ≤ 0 :=
  ⟨detect_eval_path2,
   spectral_community_detection_modularity_nonneg path2 (fun _ => []) 0 true 2 le_rfl
     (by decide) (le_of_eq gsize_path2.symm) 0 [[0, 1]] detect_eval_path2⟩

/-! ## Network rewiring theorems -/

/-- What a passed standard legality check guarantees. -/
theorem check_standard_spec {g : Finset Edge} {f s : Edge}
    (h : check_standard g f s = true) :
    f ≠ s ∧ f.1 ≠ s.2 ∧ s.1 ≠ f.2 ∧ (f.1, s.2) ∉ g ∧ (s.1, f.2) ∉ g ∧
    (s.2, f.1) ∉ g ∧ (f.2, s.1) ∉ g := by
  unfold check_standard at h
  split_ifs at h with h1 h2 h3 h4 h5 h6 h7
  exact ⟨h1, h2, h3, h4, h5, h6, h7⟩

/-- Filtered cardinality after inserting a fresh element. -/
theorem filter_card_insert {g : Finset Edge} {a : Edge} (ha : a ∉ g) (p : Edge → Prop)
    [DecidablePred p] :
    ((insert a g).filter p).card = (g.filter p).card + (if p a then 1 else 0) := by
  rw [Finset.filter_insert]
  split_ifs with hpa
  · rw [Finset.card_insert_of_not_mem (fun hc => ha (Finset.mem_of_mem_filter a hc))]
  · exact (Nat.add_zero _).symm

/-- Filtered cardinality after erasing a present element. -/
theorem filter_card_erase {g : Finset Edge} {f : Edge} (hf : f ∈ g) (p : Edge → Prop)
    [DecidablePred p] :
    ((g.erase f).filter p).card + (if p f then 1 else 0) = (g.filter p).card := by
  rw [Finset.filter_erase]
  split_ifs with hpf
  · exact Finset.card_erase_add_one (Finset.mem_filter.mpr ⟨hf, hpf⟩)
  · rw [Finset.erase_eq_of_not_mem (fun hc => hpf (Finset.mem_filter.mp hc).2), Nat.add_zero]

/-- Membership in the single-switch result graph. -/
theorem mem_switch_single_graph {g : Finset Edge} {f s e : Edge} :
    e ∈ switch_single_graph g f s ↔
      (e ∈ g ∨ e = (f.1, s.2) ∨ e = (s.1, f.2)) ∧ e ≠ f ∧ e ≠ s := by
  unfold switch_single_graph
  simp only [Finset.mem_erase, Finset.mem_insert]
  tauto

/-- Membership in the double-switch result graph. -/
theorem mem_switch_double_graph {g : Finset Edge} {f s e : Edge} :
    e ∈ switch_double_graph g f s ↔
      (e ∈ g ∨ e = (f.1, s.2) ∨ e = (s.1, f.2) ∨ e = (f.2, s.1) ∨ e = (s.2, f.1)) ∧
      e ≠ f ∧ e ≠ (f.2, f.1) ∧ e ≠ s ∧ e ≠ (s.2, s.1) := by
  unfold switch_double_graph
  simp only [Finset.mem_erase, Finset.mem_insert]
  tauto

/-- Membership in a list of edges through positional reads. -/
theorem mem_iff_getD {l : List Edge} {e : Edge} :
    e ∈ l ↔ ∃ i, i < l.length ∧ l.getD i (0, 0) = e := by
  rw [List.mem_iff_getElem]
  constructor
  · rintro ⟨i, hi, he⟩
    exact ⟨i, hi, by rw [List.getD_eq_getElem _ _ hi]; exact he⟩
  · rintro ⟨i, hi, he⟩
    exact ⟨i, hi, by rw [← List.getD_eq_getElem _ (0, 0) hi]; exact he⟩

/-- Positional reads are members. -/
theorem getD_mem_of_lt {l : List Edge} {i : ℕ} (hi : i < l.length) :
    l.getD i (0, 0) ∈ l := by
  rw [List.getD_eq_getElem _ _ hi]
  exact List.getElem_mem hi

/-- Positional read after one in-place overwrite. -/
theorem getD_set_lt {l : List Edge} {n i : ℕ} {x : Edge} (hi : i < l.length) :
    (l.set n x).getD i (0, 0) = if n = i then x else l.getD i (0, 0) := by
  have hi2 : i < (l.set n x).length := by simpa using hi
  rw [List.getD_eq_getElem _ _ hi2, List.getElem_set]
  split_ifs with hni
  · rfl
  · rw [List.getD_eq_getElem _ _ hi]

/-- Positional read after the two overwrites of a single switch. -/
theorem getD_set2 {l : List Edge} {u v : ℕ} {a1 a2 : Edge} {i : ℕ}
    (hi : i < l.length) :
    ((l.set u a1).set v a2).getD i (0, 0) =
      if v = i then a2 else if u = i then a1 else l.getD i (0, 0) := by
  have h1 : i < (l.set u a1).length := by simpa using hi
  rw [getD_set_lt h1, getD_set_lt hi]

/-- Positional read after the four overwrites of a double switch. -/
theorem getD_set4 {l : List Edge} {u v x y : ℕ} {a1 a2 a3 a4 : Edge} {i : ℕ}
    (hi : i < l.length) :
    ((((l.set u a1).set v a2).set x a3).set y a4).getD i (0, 0) =
      if y = i then a4 else if x = i then a3 else if v = i then a2
      else if u = i then a1 else l.getD i (0, 0) := by
  have h1 : i < (l.set u a1).length := by simpa using hi
  have h2 : i < ((l.set u a1).set v a2).length := by simpa using hi
  have h3 : i < (((l.set u a1).set v a2).set x a3).length := by simpa using hi
  rw [getD_set_lt h3, getD_set_lt h2, getD_set_lt h1, getD_set_lt hi]

/-- Duplicate-freedom via injectivity of positional reads. -/
theorem nodup_of_getD_inj {l : List Edge}
    (h : ∀ i j, i < l.length → j < l.length →
      l.getD i (0, 0) = l.getD j (0, 0) → i = j) :
    l.Nodup := by
  rw [List.nodup_iff_injective_get]
  intro i j hij
  have hgd : l.getD i.val (0, 0) = l.getD j.val (0, 0) := by
    rw [List.getD_eq_getElem _ _ i.isLt, List.getD_eq_getElem _ _ j.isLt]
    simpa [List.get_eq_getElem] using hij
  exact Fin.ext (h i.val j.val i.isLt j.isLt hgd)

/-- Injectivity of positional reads on a duplicate-free list. -/
theorem getD_inj_of_nodup {l : List Edge} (hnd : l.Nodup) {i j : ℕ}
    (hi : i < l.length) (hj : j < l.length)
    (he : l.getD i (0, 0) = l.getD j (0, 0)) : i = j := by
  have h2 : l.get ⟨i, hi⟩ = l.get ⟨j, hj⟩ := by
    rw [List.getD_eq_getElem _ _ hi, List.getD_eq_getElem _ _ hj] at he
    simpa [List.get_eq_getElem] using he
  have h3 := List.nodup_iff_injective_get.mp hnd h2
  exact congrArg Fin.val h3

/-- Overwriting one row with a value fresh for all other rows keeps the
rows duplicate-free. -/
theorem nodup_set_fresh {l : List Edge} (hnd : l.Nodup) {n : ℕ} {a : Edge}
    (ha : ∀ i, i < l.length → i ≠ n → l.getD i (0, 0) ≠ a) :
    (l.set n a).Nodup := by
  apply nodup_of_getD_inj
  intro i j hi hj he
  have hi2 : i < l.length := by simpa using hi
  have hj2 : j < l.length := by simpa using hj
  rw [getD_set_lt hi2, getD_set_lt hj2] at he
  by_cases h1 : n = i <;> by_cases h2 : n = j
  · omega
  · rw [if_pos h1, if_neg h2] at he
    exact absurd he.symm (ha j hj2 (fun hc => h2 hc.symm))
  · rw [if_neg h1, if_pos h2] at he
    exact absurd he (ha i hi2 (fun hc => h1 hc.symm))
  · rw [if_neg h1, if_neg h2] at he
    exact getD_inj_of_nodup hnd hi2 hj2 he

/-- The first index holding a present value reads back that value. -/
theorem getD_indexOf {l : List Edge} {e : Edge} (he : e ∈ l) :
    edgeIndexOf l e < l.length ∧ l.getD (edgeIndexOf l e) (0, 0) = e := by
  have h1 : edgeIndexOf l e < l.length := List.indexOf_lt_length.mpr he
  refine ⟨h1, ?_⟩
  rw [List.getD_eq_getElem _ _ h1]
  exact List.indexOf_get h1

/-- All properties of one accepted or rejected double switch: the
invariant is preserved, every in- and out-degree is preserved, the edge
count is preserved, and every edge present before and after keeps its
reciprocity class. -/
theorem switch_double_props (st : RWState) (u v : ℕ) (hu : u < st.bi.length)
    (hv : v < st.bi.length) (hinv : Inv st) :
    Inv (switch_double st u v) ∧
    (∀ x, out_degree (switch_double st u v).g x = out_degree st.g x ∧
          in_degree (switch_double st u v).g x = in_degree st.g x) ∧
    (switch_double st u v).g.card = st.g.card ∧
    (∀ e, e ∈ st.g → e ∈ (switch_double st u v).g →
      ((e.2, e.1) ∈ st.g ↔ (e.2, e.1) ∈ (switch_double st u v).g)) := by
  obtain ⟨hloop, huni, hbi, hndu, hndb, hclo⟩ := hinv
  by_cases hchk : check_standard st.g (st.bi.getD u (0, 0)) (st.bi.getD v (0, 0)) = true
  case neg =>
    have hstate : switch_double st u v = st := by
      rw [switch_double, if_neg hchk]
    rw [hstate]
    exact ⟨⟨hloop, huni, hbi, hndu, hndb, hclo⟩, fun x => ⟨rfl, rfl⟩, rfl,
      fun e _ _ => Iff.rfl⟩
  case pos =>
    have hstate : switch_double st u v =
        { g := switch_double_graph st.g (st.bi.getD u (0, 0)) (st.bi.getD v (0, 0)),
          uni := st.uni,
          bi := (((st.bi.set u ((st.bi.getD u (0, 0)).1, (st.bi.getD v (0, 0)).2)).set v
              ((st.bi.getD v (0, 0)).1, (st.bi.getD u (0, 0)).2)).set
              (edgeIndexOf st.bi ((st.bi.getD u (0, 0)).2, (st.bi.getD u (0, 0)).1))
              ((st.bi.getD u (0, 0)).2, (st.bi.getD v (0, 0)).1)).set
              (edgeIndexOf st.bi ((st.bi.getD v (0, 0)).2, (st.bi.getD v (0, 0)).1))
              ((st.bi.getD v (0, 0)).2, (st.bi.getD u (0, 0)).1) } := by
      rw [switch_double, if_pos hchk]
    rw [hstate]
    set f := st.bi.getD u (0, 0) with hfdef
    set s := st.bi.getD v (0, 0) with hsdef
    set x := edgeIndexOf st.bi ((f.2 : ℕ), f.1) with hxdef
    set y := edgeIndexOf st.bi ((s.2 : ℕ), s.1) with hydef
    obtain ⟨c1, c2, c3, c4, c5, c6, c7⟩ := check_standard_spec hchk
    have hfmem : f ∈ st.bi := getD_mem_of_lt hu
    have hsmem : s ∈ st.bi := getD_mem_of_lt hv
    obtain ⟨hfg, hfrev⟩ := hbi f hfmem
    obtain ⟨hsg, hsrev⟩ := hbi s hsmem
    have hfl : f.1 ≠ f.2 := hloop f hfg
    have hsl : s.1 ≠ s.2 := hloop s hsg
    have hrfmem : ((f.2 : ℕ), f.1) ∈ st.bi := hclo f hfmem
    have hrsmem : ((s.2 : ℕ), s.1) ∈ st.bi := hclo s hsmem
    have hxfact := getD_indexOf hrfmem
    have hyfact := getD_indexOf hrsmem
    rw [← hxdef] at hxfact
    rw [← hydef] at hyfact
    obtain ⟨hxlt, hxval⟩ := hxfact
    obtain ⟨hylt, hyval⟩ := hyfact
    -- pairwise distinctness of the four added edges
    have pa12 : ((f.1 : ℕ), s.2) ≠ (s.1, f.2) := by
      intro he; rw [Prod.mk.injEq] at he; exact c1 (Prod.ext he.1 he.2.symm)
    have pa13 : ((f.1 : ℕ), s.2) ≠ (f.2, s.1) := by
      intro he; rw [Prod.mk.injEq] at he; exact hfl he.1
    have pa14 : ((f.1 : ℕ), s.2) ≠ (s.2, f.1) := by
      intro he; rw [Prod.mk.injEq] at he; exact c2 he.1
    have pa23 : ((s.1 : ℕ), f.2) ≠ (f.2, s.1) := by
      intro he; rw [Prod.mk.injEq] at he; exact c3 he.1
    have pa24 : ((s.1 : ℕ), f.2) ≠ (s.2, f.1) := by
      intro he; rw [Prod.mk.injEq] at he; exact hsl he.1
    have pa34 : ((f.2 : ℕ), s.1) ≠ (s.2, f.1) := by
      intro he; rw [Prod.mk.injEq] at he; exact c1 (Prod.ext he.2.symm he.1)
    -- pairwise distinctness of the four removed edges
    have pr12 : f ≠ ((f.2 : ℕ), f.1) := fun he => hfl (congrArg Prod.fst he)
    have pr14 : f ≠ ((s.2 : ℕ), s.1) := fun he => c2 (congrArg Prod.fst he)
    have pr23 : ((f.2 : ℕ), f.1) ≠ s := fun he => c3 ((congrArg Prod.fst he).symm)
    have pr24 : ((f.2 : ℕ), f.1) ≠ ((s.2 : ℕ), s.1) := by
      intro he; rw [Prod.mk.injEq] at he; exact c1 (Prod.ext he.2 he.1)
    have pr34 : s ≠ ((s.2 : ℕ), s.1) := fun he => hsl (congrArg Prod.fst he)
    -- freshness chain for the counting lemmas
    have hm2 : ((s.1 : ℕ), f.2) ∉ insert ((f.1 : ℕ), s.2) st.g := by
      simp only [Finset.mem_insert]; push_neg; exact ⟨pa12.symm, c5⟩
    have hm3 : ((f.2 : ℕ), s.1) ∉
        insert ((s.1 : ℕ), f.2) (insert ((f.1 : ℕ), s.2) st.g) := by
      simp only [Finset.mem_insert]; push_neg; exact ⟨pa23.symm, pa13.symm, c7⟩
    have hm4 : ((s.2 : ℕ), f.1) ∉ insert ((f.2 : ℕ), s.1)
        (insert ((s.1 : ℕ), f.2) (insert ((f.1 : ℕ), s.2) st.g)) := by
      simp only [Finset.mem_insert]; push_neg
      exact ⟨pa34.symm, pa24.symm, pa14.symm, c6⟩
    -- presence chain for the erases
    have he1 : f ∈ insert ((s.2 : ℕ), f.1) (insert ((f.2 : ℕ), s.1)
        (insert ((s.1 : ℕ), f.2) (insert ((f.1 : ℕ), s.2) st.g))) := by simp [hfg]
    have he2 : ((f.2 : ℕ), f.1) ∈ (insert ((s.2 : ℕ), f.1) (insert ((f.2 : ℕ), s.1)
        (insert ((s.1 : ℕ), f.2) (insert ((f.1 : ℕ), s.2) st.g)))).erase f :=
      Finset.mem_erase.mpr ⟨pr12.symm, by simp [hfrev]⟩
    have he3 : s ∈ ((insert ((s.2 : ℕ), f.1) (insert ((f.2 : ℕ), s.1)
        (insert ((s.1 : ℕ), f.2) (insert ((f.1 : ℕ), s.2) st.g)))).erase f).erase
        ((f.2 : ℕ), f.1) :=
      Finset.mem_erase.mpr ⟨pr23.symm, Finset.mem_erase.mpr ⟨c1.symm, by simp [hsg]⟩⟩
    have he4 : ((s.2 : ℕ), s.1) ∈ (((insert ((s.2 : ℕ), f.1) (insert ((f.2 : ℕ), s.1)
        (insert ((s.1 : ℕ), f.2) (insert ((f.1 : ℕ), s.2) st.g)))).erase f).erase
        ((f.2 : ℕ), f.1)).erase s :=
      Finset.mem_erase.mpr ⟨pr34.symm, Finset.mem_erase.mpr ⟨pr24.symm,
        Finset.mem_erase.mpr ⟨pr14.symm, by simp [hsrev]⟩⟩⟩
    -- the four added edges are in the result, with their reverses
    have hga1 : ((f.1 : ℕ), s.2) ∈ switch_double_graph st.g f s :=
      mem_switch_double_graph.mpr ⟨Or.inr (Or.inl rfl),
        fun h => by rw [h] at c4; exact c4 hfg,
        fun h => by rw [h] at c4; exact c4 hfrev,
        fun h => by rw [h] at c4; exact c4 hsg,
        fun h => by rw [h] at c4; exact c4 hsrev⟩
    have hga2 : ((s.1 : ℕ), f.2) ∈ switch_double_graph st.g f s :=
      mem_switch_double_graph.mpr ⟨Or.inr (Or.inr (Or.inl rfl)),
        fun h => by rw [h] at c5; exact c5 hfg,
        fun h => by rw [h] at c5; exact c5 hfrev,
        fun h => by rw [h] at c5; exact c5 hsg,
        fun h => by rw [h] at c5; exact c5 hsrev⟩
    have hga3 : ((f.2 : ℕ), s.1) ∈ switch_double_graph st.g f s :=
      mem_switch_double_graph.mpr ⟨Or.inr (Or.inr (Or.inr (Or.inl rfl))),
        fun h => by rw [h] at c7; exact c7 hfg,
        fun h => by rw [h] at c7; exact c7 hfrev,
        fun h => by rw [h] at c7; exact c7 hsg,
        fun h => by rw [h] at c7; exact c7 hsrev⟩
    have hga4 : ((s.2 : ℕ), f.1) ∈ switch_double_graph st.g f s :=
      mem_switch_double_graph.mpr ⟨Or.inr (Or.inr (Or.inr (Or.inr rfl))),
        fun h => by rw [h] at c6; exact c6 hfg,
        fun h => by rw [h] at c6; exact c6 hfrev,
        fun h => by rw [h] at c6; exact c6 hsg,
        fun h => by rw [h] at c6; exact c6 hsrev⟩
    -- position distinctness
    have huv : u ≠ v := fun he => c1 (by rw [hfdef, hsdef, he])
    have hux : u ≠ x := by
      intro he
      apply pr12
      calc f = st.bi.getD u (0, 0) := hfdef
        _ = st.bi.getD x (0, 0) := by rw [he]
        _ = ((f.2 : ℕ), f.1) := hxval
    have huy : u ≠ y := by
      intro he
      apply pr14
      calc f = st.bi.getD u (0, 0) := hfdef
        _ = st.bi.getD y (0, 0) := by rw [he]
        _ = ((s.2 : ℕ), s.1) := hyval
    have hvx : v ≠ x := by
      intro he
      apply pr23
      calc ((f.2 : ℕ), f.1) = st.bi.getD x (0, 0) := hxval.symm
        _ = st.bi.getD v (0, 0) := by rw [he]
        _ = s := hsdef.symm
    have hvy : v ≠ y := by
      intro he
      apply pr34
      calc s = st.bi.getD v (0, 0) := hsdef
        _ = st.bi.getD y (0, 0) := by rw [he]
        _ = ((s.2 : ℕ), s.1) := hyval
    have hxy : x ≠ y := by
      intro he
      apply pr24
      calc ((f.2 : ℕ), f.1) = st.bi.getD x (0, 0) := hxval.symm
        _ = st.bi.getD y (0, 0) := by rw [he]
        _ = ((s.2 : ℕ), s.1) := hyval
    -- an old row distinct from the four positions is none of the four values
    have hold : ∀ i, i < st.bi.length → i ≠ u → i ≠ v → i ≠ x → i ≠ y →
        st.bi.getD i (0, 0) ≠ f ∧ st.bi.getD i (0, 0) ≠ s ∧
        st.bi.getD i (0, 0) ≠ ((f.2 : ℕ), f.1) ∧
        st.bi.getD i (0, 0) ≠ ((s.2 : ℕ), s.1) := by
      intro i hi hiu hiv hix hiy
      refine ⟨?_, ?_, ?_, ?_⟩
      · intro hc; exact hiu (getD_inj_of_nodup hndb hi hu (by rw [hc, hfdef]))
      · intro hc; exact hiv (getD_inj_of_nodup hndb hi hv (by rw [hc, hsdef]))
      · intro hc; exact hix (getD_inj_of_nodup hndb hi hxlt (by rw [hc, hxval]))
      · intro hc; exact hiy (getD_inj_of_nodup hndb hi hylt (by rw [hc, hyval]))
    refine ⟨⟨?_, ?_, ?_, hndu, ?_, ?_⟩, ?_, ?_, ?_⟩
    -- looplessness
    · intro e he
      rcases (mem_switch_double_graph.mp he).1 with h | h | h | h | h
      · exact hloop e h
      · rw [h]; exact c2
      · rw [h]; exact c3
      · rw [h]; exact fun hc => c3 hc.symm
      · rw [h]; exact fun hc => c2 hc.symm
    -- unidirectional rows (unchanged list)
    · intro e he
      obtain ⟨heg, herev⟩ := huni e he
      have hef : e ≠ f := fun hc => herev (by rw [hc]; exact hfrev)
      have herf : e ≠ ((f.2 : ℕ), f.1) := by
        intro hc
        apply herev
        rw [hc]
        exact hfg
      have hes : e ≠ s := fun hc => herev (by rw [hc]; exact hsrev)
      have hers : e ≠ ((s.2 : ℕ), s.1) := by
        intro hc
        apply herev
        rw [hc]
        exact hsg
      refine ⟨mem_switch_double_graph.mpr ⟨Or.inl heg, hef, herf, hes, hers⟩, ?_⟩
      intro hc
      rcases (mem_switch_double_graph.mp hc).1 with h | h | h | h | h
      · exact herev h
      · rw [Prod.mk.injEq] at h
        exact c6 ((Prod.ext h.2 h.1 : e = ((s.2 : ℕ), f.1)) ▸ heg)
      · rw [Prod.mk.injEq] at h
        exact c7 ((Prod.ext h.2 h.1 : e = ((f.2 : ℕ), s.1)) ▸ heg)
      · rw [Prod.mk.injEq] at h
        exact c5 ((Prod.ext h.2 h.1 : e = ((s.1 : ℕ), f.2)) ▸ heg)
      · rw [Prod.mk.injEq] at h
        exact c4 ((Prod.ext h.2 h.1 : e = ((f.1 : ℕ), s.2)) ▸ heg)
    -- bidirectional rows
    · intro e he
      rw [mem_iff_getD] at he
      obtain ⟨i, hi, hei⟩ := he
      have hi2 : i < st.bi.length := by simpa using hi
      rw [getD_set4 hi2] at hei
      by_cases h1 : y = i
      · rw [if_pos h1] at hei
        rw [← hei]
        exact ⟨hga4, hga1⟩
      · rw [if_neg h1] at hei
        by_cases h2 : x = i
        · rw [if_pos h2] at hei
          rw [← hei]
          exact ⟨hga3, hga2⟩
        · rw [if_neg h2] at hei
          by_cases h3 : v = i
          · rw [if_pos h3] at hei
            rw [← hei]
            exact ⟨hga2, hga3⟩
          · rw [if_neg h3] at hei
            by_cases h4 : u = i
            · rw [if_pos h4] at hei
              rw [← hei]
              exact ⟨hga1, hga4⟩
            · rw [if_neg h4] at hei
              obtain ⟨hne1, hne2, hne3, hne4⟩ := hold i hi2 (fun hc => h4 hc.symm)
                (fun hc => h3 hc.symm) (fun hc => h2 hc.symm) (fun hc => h1 hc.symm)
              rw [hei] at hne1 hne2 hne3 hne4
              have hemem : e ∈ st.bi := hei ▸ getD_mem_of_lt hi2
              obtain ⟨heg, herev⟩ := hbi e hemem
              have hrevb : ((e.2 : ℕ), e.1) ∈ st.bi := hclo e hemem
              have hrne1 : ((e.2 : ℕ), e.1) ≠ f := by
                intro hc
                apply hne3
                rw [Prod.mk.injEq] at hc
                exact Prod.ext hc.2 hc.1
              have hrne2 : ((e.2 : ℕ), e.1) ≠ s := by
                intro hc
                apply hne4
                rw [Prod.mk.injEq] at hc
                exact Prod.ext hc.2 hc.1
              have hrne3 : ((e.2 : ℕ), e.1) ≠ ((f.2 : ℕ), f.1) := by
                intro hc
                apply hne1
                rw [Prod.mk.injEq] at hc
                exact (Prod.ext hc.2 hc.1).trans (Prod.mk.eta)
              have hrne4 : ((e.2 : ℕ), e.1) ≠ ((s.2 : ℕ), s.1) := by
                intro hc
                apply hne2
                rw [Prod.mk.injEq] at hc
                exact (Prod.ext hc.2 hc.1).trans (Prod.mk.eta)
              refine ⟨mem_switch_double_graph.mpr
                ⟨Or.inl heg, hne1, hne3, hne2, hne4⟩,
                mem_switch_double_graph.mpr
                ⟨Or.inl herev, hrne1, hrne3, hrne2, hrne4⟩⟩
    -- nodup of the updated bidirectional rows
    · apply nodup_set_fresh
      · apply nodup_set_fresh
        · apply nodup_set_fresh
          · apply nodup_set_fresh hndb
            intro i hi _
            intro hc
            exact c4 (hc ▸ (hbi _ (getD_mem_of_lt hi)).1)
          · intro i hi hiv
            have hi0 : i < st.bi.length := by simpa using hi
            rw [getD_set_lt hi0]
            by_cases h2 : u = i
            · rw [if_pos h2]; exact pa12
            · rw [if_neg h2]
              intro hc
              exact c5 (hc ▸ (hbi _ (getD_mem_of_lt hi0)).1)
        · intro i hi hix
          have hi0 : i < st.bi.length := by simpa using hi
          have hi1 : i < (st.bi.set u ((f.1 : ℕ), s.2)).length := by simpa using hi0
          rw [getD_set_lt hi1, getD_set_lt hi0]
          by_cases h3 : v = i
          · rw [if_pos h3]; exact pa23
          · rw [if_neg h3]
            by_cases h2 : u = i
            · rw [if_pos h2]; exact pa13
            · rw [if_neg h2]
              intro hc
              exact c7 (hc ▸ (hbi _ (getD_mem_of_lt hi0)).1)
      · intro i hi hiy
        have hi0 : i < st.bi.length := by simpa using hi
        have hi1 : i < (st.bi.set u ((f.1 : ℕ), s.2)).length := by simpa using hi0
        have hi2 : i < ((st.bi.set u ((f.1 : ℕ), s.2)).set v
            ((s.1 : ℕ), f.2)).length := by simpa using hi0
        rw [getD_set_lt hi2, getD_set_lt hi1, getD_set_lt hi0]
        by_cases h4 : x = i
        · rw [if_pos h4]; exact pa34
        · rw [if_neg h4]
          by_cases h3 : v = i
          · rw [if_pos h3]; exact pa24
          · rw [if_neg h3]
            by_cases h2 : u = i
            · rw [if_pos h2]; exact pa14
            · rw [if_neg h2]
              intro hc
              exact c6 (hc ▸ (hbi _ (getD_mem_of_lt hi0)).1)
    -- closure of the updated bidirectional rows under reversal
    · intro e he
      rw [mem_iff_getD] at he
      obtain ⟨i, hi, hei⟩ := he
      have hi2 : i < st.bi.length := by simpa using hi
      have hmem_at : ∀ (k : ℕ), k < st.bi.length → ∀ w : Edge,
          ((((st.bi.set u ((f.1 : ℕ), s.2)).set v ((s.1 : ℕ), f.2)).set x
            ((f.2 : ℕ), s.1)).set y ((s.2 : ℕ), f.1)).getD k (0, 0) = w →
          w ∈ (((st.bi.set u ((f.1 : ℕ), s.2)).set v ((s.1 : ℕ), f.2)).set x
            ((f.2 : ℕ), s.1)).set y ((s.2 : ℕ), f.1) := by
        intro k hk w hw
        rw [mem_iff_getD]
        exact ⟨k, by simpa using hk, hw⟩
      rw [getD_set4 hi2] at hei
      by_cases h1 : y = i
      · rw [if_pos h1] at hei
        rw [← hei]
        refine hmem_at u hu _ ?_
        rw [getD_set4 hu, if_neg (fun hc => huy hc.symm), if_neg (fun hc => hux hc.symm),
          if_neg (fun hc => huv hc.symm), if_pos rfl]
      · rw [if_neg h1] at hei
        by_cases h2 : x = i
        · rw [if_pos h2] at hei
          rw [← hei]
          refine hmem_at v hv _ ?_
          rw [getD_set4 hv, if_neg (fun hc => hvy hc.symm), if_neg (fun hc => hvx hc.symm),
            if_pos rfl]
        · rw [if_neg h2] at hei
          by_cases h3 : v = i
          · rw [if_pos h3] at hei
            rw [← hei]
            refine hmem_at x hxlt _ ?_
            rw [getD_set4 hxlt, if_neg (fun hc => hxy hc.symm), if_pos rfl]
          · rw [if_neg h3] at hei
            by_cases h4 : u = i
            · rw [if_pos h4] at hei
              rw [← hei]
              refine hmem_at y hylt _ ?_
              rw [getD_set4 hylt, if_pos rfl]
            · rw [if_neg h4] at hei
              obtain ⟨hne1, hne2, hne3, hne4⟩ := hold i hi2 (fun hc => h4 hc.symm)
                (fun hc => h3 hc.symm) (fun hc => h2 hc.symm) (fun hc => h1 hc.symm)
              rw [hei] at hne1 hne2 hne3 hne4
              have hemem : e ∈ st.bi := hei ▸ getD_mem_of_lt hi2
              have hrevb : ((e.2 : ℕ), e.1) ∈ st.bi := hclo e hemem
              rw [mem_iff_getD] at hrevb
              obtain ⟨k, hk, hkval⟩ := hrevb
              have hku : k ≠ u := by
                intro hc
                apply hne3
                have h5 : ((e.2 : ℕ), e.1) = f := by rw [← hkval, hc, ← hfdef]
                rw [Prod.mk.injEq] at h5
                exact Prod.ext h5.2 h5.1
              have hkv : k ≠ v := by
                intro hc
                apply hne4
                have h5 : ((e.2 : ℕ), e.1) = s := by rw [← hkval, hc, ← hsdef]
                rw [Prod.mk.injEq] at h5
                exact Prod.ext h5.2 h5.1
              have hkx : k ≠ x := by
                intro hc
                apply hne1
                have h5 : ((e.2 : ℕ), e.1) = ((f.2 : ℕ), f.1) := by rw [← hkval, hc, hxval]
                rw [Prod.mk.injEq] at h5
                exact (Prod.ext h5.2 h5.1).trans (Prod.mk.eta)
              have hky : k ≠ y := by
                intro hc
                apply hne2
                have h5 : ((e.2 : ℕ), e.1) = ((s.2 : ℕ), s.1) := by rw [← hkval, hc, hyval]
                rw [Prod.mk.injEq] at h5
                exact (Prod.ext h5.2 h5.1).trans (Prod.mk.eta)
              refine hmem_at k hk _ ?_
              rw [getD_set4 hk, if_neg (fun hc => hky hc.symm),
                if_neg (fun hc => hkx hc.symm), if_neg (fun hc => hkv hc.symm),
                if_neg (fun hc => hku hc.symm)]
              exact hkval
    -- degrees
    · intro z
      constructor
      · show out_degree (switch_double_graph st.g f s) z = out_degree st.g z
        unfold out_degree switch_double_graph
        have k1 := filter_card_insert c4 (fun e : Edge => e.1 = z)
        have k2 := filter_card_insert hm2 (fun e : Edge => e.1 = z)
        have k3 := filter_card_insert hm3 (fun e : Edge => e.1 = z)
        have k4 := filter_card_insert hm4 (fun e : Edge => e.1 = z)
        have k5 := filter_card_erase he1 (fun e : Edge => e.1 = z)
        have k6 := filter_card_erase he2 (fun e : Edge => e.1 = z)
        have k7 := filter_card_erase he3 (fun e : Edge => e.1 = z)
        have k8 := filter_card_erase he4 (fun e : Edge => e.1 = z)
        simp only at k1 k2 k3 k4 k5 k6 k7 k8
        omega
      · show in_degree (switch_double_graph st.g f s) z = in_degree st.g z
        unfold in_degree switch_double_graph
        have k1 := filter_card_insert c4 (fun e : Edge => e.2 = z)
        have k2 := filter_card_insert hm2 (fun e : Edge => e.2 = z)
        have k3 := filter_card_insert hm3 (fun e : Edge => e.2 = z)
        have k4 := filter_card_insert hm4 (fun e : Edge => e.2 = z)
        have k5 := filter_card_erase he1 (fun e : Edge => e.2 = z)
        have k6 := filter_card_erase he2 (fun e : Edge => e.2 = z)
        have k7 := filter_card_erase he3 (fun e : Edge => e.2 = z)
        have k8 := filter_card_erase he4 (fun e : Edge => e.2 = z)
        simp only at k1 k2 k3 k4 k5 k6 k7 k8
        omega
    -- edge count
    · show (switch_double_graph st.g f s).card = st.g.card
      unfold switch_double_graph
      have k1 := Finset.card_insert_of_not_mem c4
      have k2 := Finset.card_insert_of_not_mem hm2
      have k3 := Finset.card_insert_of_not_mem hm3
      have k4 := Finset.card_insert_of_not_mem hm4
      have k5 := Finset.card_erase_add_one he1
      have k6 := Finset.card_erase_add_one he2
      have k7 := Finset.card_erase_add_one he3
      have k8 := Finset.card_erase_add_one he4
      omega
    -- reciprocity class of surviving edges
    · intro e heg he2
      have he2b : e ∈ switch_double_graph st.g f s := he2
      obtain ⟨_, hef, herf, hes, hers⟩ := mem_switch_double_graph.mp he2b
      show ((e.2 : ℕ), e.1) ∈ st.g ↔ ((e.2 : ℕ), e.1) ∈ switch_double_graph st.g f s
      constructor
      · intro hr
        refine mem_switch_double_graph.mpr ⟨Or.inl hr, ?_, ?_, ?_, ?_⟩
        · intro hc
          apply herf
          rw [Prod.mk.injEq] at hc
          exact Prod.ext hc.2 hc.1
        · intro hc
          apply hef
          rw [Prod.mk.injEq] at hc
          exact (Prod.ext hc.2 hc.1).trans (Prod.mk.eta)
        · intro hc
          apply hers
          rw [Prod.mk.injEq] at hc
          exact Prod.ext hc.2 hc.1
        · intro hc
          apply hes
          rw [Prod.mk.injEq] at hc
          exact (Prod.ext hc.2 hc.1).trans (Prod.mk.eta)
      · intro hr
        rcases (mem_switch_double_graph.mp hr).1 with h | h | h | h | h
        · exact h
        · exfalso
          rw [Prod.mk.injEq] at h
          exact c6 ((Prod.ext h.2 h.1 : e = ((s.2 : ℕ), f.1)) ▸ heg)
        · exfalso
          rw [Prod.mk.injEq] at h
          exact c7 ((Prod.ext h.2 h.1 : e = ((f.2 : ℕ), s.1)) ▸ heg)
        · exfalso
          rw [Prod.mk.injEq] at h
          exact c5 ((Prod.ext h.2 h.1 : e = ((s.1 : ℕ), f.2)) ▸ heg)
        · exfalso
          rw [Prod.mk.injEq] at h
          exact c4 ((Prod.ext h.2 h.1 : e = ((f.1 : ℕ), s.2)) ▸ heg)

/-- All properties of one accepted or rejected single switch: the
invariant is preserved, every in- and out-degree is preserved, the edge
count is preserved, and every edge present before and after keeps its
reciprocity class. -/
theorem switch_single_props (st : RWState) (u v : ℕ) (hu : u < st.uni.length)
    (hv : v < st.uni.length) (hinv : Inv st) :
    Inv (switch_single st u v) ∧
    (∀ x, out_degree (switch_single st u v).g x = out_degree st.g x ∧
          in_degree (switch_single st u v).g x = in_degree st.g x) ∧
    (switch_single st u v).g.card = st.g.card ∧
    (∀ e, e ∈ st.g → e ∈ (switch_single st u v).g →
      ((e.2, e.1) ∈ st.g ↔ (e.2, e.1) ∈ (switch_single st u v).g)) := by
  obtain ⟨hloop, huni, hbi, hndu, hndb, hclo⟩ := hinv
  by_cases hchk : check_standard st.g (st.uni.getD u (0, 0)) (st.uni.getD v (0, 0)) = true
  case neg =>
    have hstate : switch_single st u v = st := by
      rw [switch_single, if_neg hchk]
    rw [hstate]
    exact ⟨⟨hloop, huni, hbi, hndu, hndb, hclo⟩, fun x => ⟨rfl, rfl⟩, rfl,
      fun e _ _ => Iff.rfl⟩
  case pos =>
    have hstate : switch_single st u v =
        { g := switch_single_graph st.g (st.uni.getD u (0, 0)) (st.uni.getD v (0, 0)),
          uni := (st.uni.set u ((st.uni.getD u (0, 0)).1, (st.uni.getD v (0, 0)).2)).set v
            ((st.uni.getD v (0, 0)).1, (st.uni.getD u (0, 0)).2),
          bi := st.bi } := by
      rw [switch_single, if_pos hchk]
    rw [hstate]
    set f := st.uni.getD u (0, 0) with hfdef
    set s := st.uni.getD v (0, 0) with hsdef
    obtain ⟨c1, c2, c3, c4, c5, c6, c7⟩ := check_standard_spec hchk
    have hfmem : f ∈ st.uni := getD_mem_of_lt hu
    have hsmem : s ∈ st.uni := getD_mem_of_lt hv
    obtain ⟨hfg, hfrev⟩ := huni f hfmem
    obtain ⟨hsg, hsrev⟩ := huni s hsmem
    have hfl : f.1 ≠ f.2 := hloop f hfg
    have hsl : s.1 ≠ s.2 := hloop s hsg
    have huv : u ≠ v := fun he => c1 (by rw [hfdef, hsdef, he])
    have hab : ((f.1 : ℕ), s.2) ≠ (s.1, f.2) := by
      intro he
      rw [Prod.mk.injEq] at he
      exact c1 (Prod.ext he.1 he.2.symm)
    have haf : ((f.1 : ℕ), s.2) ≠ f := fun h => c4 (h ▸ hfg)
    have has : ((f.1 : ℕ), s.2) ≠ s := fun h => c4 (h ▸ hsg)
    have hbf : ((s.1 : ℕ), f.2) ≠ f := fun h => c5 (h ▸ hfg)
    have hbs : ((s.1 : ℕ), f.2) ≠ s := fun h => c5 (h ▸ hsg)
    have hbni : ((s.1 : ℕ), f.2) ∉ insert ((f.1 : ℕ), s.2) st.g := by
      simp only [Finset.mem_insert]
      push_neg
      exact ⟨hab.symm, c5⟩
    have hfi : f ∈ insert ((s.1 : ℕ), f.2) (insert ((f.1 : ℕ), s.2) st.g) := by
      simp [hfg]
    have hsi : s ∈ (insert ((s.1 : ℕ), f.2) (insert ((f.1 : ℕ), s.2) st.g)).erase f :=
      Finset.mem_erase.mpr ⟨c1.symm, by simp [hsg]⟩
    -- membership in the new graph and the two fresh edges
    have hmemA : ((f.1 : ℕ), s.2) ∈ switch_single_graph st.g f s :=
      mem_switch_single_graph.mpr ⟨Or.inr (Or.inl rfl), haf, has⟩
    have hmemB : ((s.1 : ℕ), f.2) ∈ switch_single_graph st.g f s :=
      mem_switch_single_graph.mpr ⟨Or.inr (Or.inr rfl), hbf, hbs⟩
    have hrevA : ((s.2 : ℕ), f.1) ∉ switch_single_graph st.g f s := by
      intro hc
      rcases (mem_switch_single_graph.mp hc).1 with h | h | h
      · exact c6 h
      · exact c2 (congrArg Prod.snd h)
      · exact hfl (congrArg Prod.snd h)
    have hrevB : ((f.2 : ℕ), s.1) ∉ switch_single_graph st.g f s := by
      intro hc
      rcases (mem_switch_single_graph.mp hc).1 with h | h | h
      · exact c7 h
      · exact hsl (congrArg Prod.snd h)
      · exact c3 ((congrArg Prod.fst h).symm)
    refine ⟨⟨?_, ?_, ?_, ?_, hndb, hclo⟩, ?_, ?_, ?_⟩
    -- looplessness
    · intro e he
      rcases (mem_switch_single_graph.mp he).1 with h | h | h
      · exact hloop e h
      · rw [h]; exact c2
      · rw [h]; exact c3
    -- unidirectional rows
    · intro e he
      rw [mem_iff_getD] at he
      obtain ⟨i, hi, hei⟩ := he
      have hi2 : i < st.uni.length := by simpa using hi
      rw [getD_set2 hi2] at hei
      by_cases h1 : v = i
      · rw [if_pos h1] at hei
        rw [← hei]
        exact ⟨hmemB, hrevB⟩
      · rw [if_neg h1] at hei
        by_cases h2 : u = i
        · rw [if_pos h2] at hei
          rw [← hei]
          exact ⟨hmemA, hrevA⟩
        · rw [if_neg h2] at hei
          have hemem : e ∈ st.uni := hei ▸ getD_mem_of_lt hi2
          obtain ⟨heg, herev⟩ := huni e hemem
          have hef : e ≠ f := by
            intro hc
            exact h2 (getD_inj_of_nodup hndu hu hi2 (by rw [hei, hc, hfdef]))
          have hes : e ≠ s := by
            intro hc
            exact h1 (getD_inj_of_nodup hndu hv hi2 (by rw [hei, hc, hsdef]))
          refine ⟨mem_switch_single_graph.mpr ⟨Or.inl heg, hef, hes⟩, ?_⟩
          intro hc
          rcases (mem_switch_single_graph.mp hc).1 with h | h | h
          · exact herev h
          · exact c6 (by
              rw [show ((s.2 : ℕ), f.1) = e from
                Prod.ext (congrArg Prod.snd h).symm (congrArg Prod.fst h).symm]
              exact heg)
          · exact c7 (by
              rw [show ((f.2 : ℕ), s.1) = e from
                Prod.ext (congrArg Prod.snd h).symm (congrArg Prod.fst h).symm]
              exact heg)
    -- bidirectional rows
    · intro e he
      obtain ⟨heg, herev⟩ := hbi e he
      have hef : e ≠ f := fun hc => hfrev (by rw [← hc]; exact herev)
      have hes : e ≠ s := fun hc => hsrev (by rw [← hc]; exact herev)
      have href : ((e.2 : ℕ), e.1) ≠ f := by
        intro hc
        apply hfrev
        rw [show ((f.2 : ℕ), f.1) = e from by
          rw [← hc]]
        exact heg
      have hres : ((e.2 : ℕ), e.1) ≠ s := by
        intro hc
        apply hsrev
        rw [show ((s.2 : ℕ), s.1) = e from by
          rw [← hc]]
        exact heg
      exact ⟨mem_switch_single_graph.mpr ⟨Or.inl heg, hef, hes⟩,
        mem_switch_single_graph.mpr ⟨Or.inl herev, href, hres⟩⟩
    -- nodup of the updated rows
    · apply nodup_of_getD_inj
      intro i j hi hj he
      have hi2 : i < st.uni.length := by simpa using hi
      have hj2 : j < st.uni.length := by simpa using hj
      rw [getD_set2 hi2, getD_set2 hj2] at he
      by_cases h1 : v = i <;> by_cases h2 : v = j
      · omega
      · rw [if_pos h1, if_neg h2] at he
        by_cases h3 : u = j
        · rw [if_pos h3] at he
          exact absurd he hab.symm
        · rw [if_neg h3] at he
          exact absurd (he ▸ (huni _ (getD_mem_of_lt hj2)).1) c5
      · rw [if_neg h1, if_pos h2] at he
        by_cases h3 : u = i
        · rw [if_pos h3] at he
          exact absurd he hab
        · rw [if_neg h3] at he
          exact absurd (he.symm ▸ (huni _ (getD_mem_of_lt hi2)).1) c5
      · rw [if_neg h1, if_neg h2] at he
        by_cases h3 : u = i <;> by_cases h4 : u = j
        · omega
        · rw [if_pos h3, if_neg h4] at he
          exact absurd (he ▸ (huni _ (getD_mem_of_lt hj2)).1) c4
        · rw [if_neg h3, if_pos h4] at he
          exact absurd (he.symm ▸ (huni _ (getD_mem_of_lt hi2)).1) c4
        · rw [if_neg h3, if_neg h4] at he
          exact getD_inj_of_nodup hndu hi2 hj2 he
    -- degrees
    · intro x
      constructor
      · show out_degree (switch_single_graph st.g f s) x = out_degree st.g x
        unfold out_degree switch_single_graph
        have k1 := filter_card_insert c4 (fun e : Edge => e.1 = x)
        have k2 := filter_card_insert hbni (fun e : Edge => e.1 = x)
        have k3 := filter_card_erase hfi (fun e : Edge => e.1 = x)
        have k4 := filter_card_erase hsi (fun e : Edge => e.1 = x)
        simp only at k1 k2 k3 k4
        omega
      · show in_degree (switch_single_graph st.g f s) x = in_degree st.g x
        unfold in_degree switch_single_graph
        have k1 := filter_card_insert c4 (fun e : Edge => e.2 = x)
        have k2 := filter_card_insert hbni (fun e : Edge => e.2 = x)
        have k3 := filter_card_erase hfi (fun e : Edge => e.2 = x)
        have k4 := filter_card_erase hsi (fun e : Edge => e.2 = x)
        simp only at k1 k2 k3 k4
        omega
    -- edge count
    · show (switch_single_graph st.g f s).card = st.g.card
      unfold switch_single_graph
      have k1 := Finset.card_insert_of_not_mem c4
      have k2 := Finset.card_insert_of_not_mem hbni
      have k3 := Finset.card_erase_add_one hfi
      have k4 := Finset.card_erase_add_one hsi
      omega
    -- reciprocity class of surviving edges
    · intro e heg he2
      have he2b : e ∈ switch_single_graph st.g f s := he2
      obtain ⟨_, hef, hes⟩ := mem_switch_single_graph.mp he2b
      show ((e.2 : ℕ), e.1) ∈ st.g ↔ ((e.2 : ℕ), e.1) ∈ switch_single_graph st.g f s
      constructor
      · intro hr
        refine mem_switch_single_graph.mpr ⟨Or.inl hr, ?_, ?_⟩
        · intro hc
          apply hfrev
          rw [show ((f.2 : ℕ), f.1) = e from
            Prod.ext (congrArg Prod.snd hc).symm (congrArg Prod.fst hc).symm]
          exact heg
        · intro hc
          apply hsrev
          rw [show ((s.2 : ℕ), s.1) = e from
            Prod.ext (congrArg Prod.snd hc).symm (congrArg Prod.fst hc).symm]
          exact heg
      · intro hr
        rcases (mem_switch_single_graph.mp hr).1 with h | h | h
        · exact h
        · exfalso
          rw [Prod.mk.injEq] at h
          have hee : e = ((s.2 : ℕ), f.1) := Prod.ext h.2 h.1
          exact c6 (hee ▸ heg)
        · exfalso
          rw [Prod.mk.injEq] at h
          have hee : e = ((f.2 : ℕ), s.1) := Prod.ext h.2 h.1
          exact c7 (hee ▸ heg)

/-- One switching attempt preserves the invariant, all degrees, the
edge count and surviving reciprocity classes. -/
theorem RWStep_props {st st' : RWState} (hinv : Inv st) (hstep : RWStep st st') :
    Inv st' ∧
    (∀ x, out_degree st'.g x = out_degree st.g x ∧
          in_degree st'.g x = in_degree st.g x) ∧
    st'.g.card = st.g.card ∧
    (∀ e, e ∈ st.g → e ∈ st'.g → ((e.2, e.1) ∈ st.g ↔ (e.2, e.1) ∈ st'.g)) := by
  cases hstep with
  | single u v hu hv => exact switch_single_props st u v hu hv hinv
  | double u v hu hv => exact switch_double_props st u v hu hv hinv

/-- Along any chain of switching attempts the invariant, degrees and
edge count are preserved. -/
theorem RWChain_props {st0 st : RWState} (hinv : Inv st0)
    (hchain : Relation.ReflTransGen RWStep st0 st) :
    Inv st ∧
    (∀ x, out_degree st.g x = out_degree st0.g x ∧
          in_degree st.g x = in_degree st0.g x) ∧
    st.g.card = st0.g.card := by
  induction hchain with
  | refl => exact ⟨hinv, fun x => ⟨rfl, rfl⟩, rfl⟩
  | tail hc hstep ih =>
    obtain ⟨hinv1, hdeg1, hcard1⟩ := ih
    obtain ⟨hinv2, hdeg2, hcard2, _⟩ := RWStep_props hinv1 hstep
    exact ⟨hinv2, fun x => ⟨(hdeg2 x).1.trans (hdeg1 x).1, (hdeg2 x).2.trans (hdeg1 x).2⟩,
      hcard2.trans hcard1⟩

/-- The standard categorisation of a duplicate-free loopless edge list
satisfies the rewiring invariant. -/
theorem Inv_standard_groups {l : List Edge} (hnd : l.Nodup)
    (hloop : ∀ e ∈ l, e.1 ≠ e.2) : Inv (standard_groups l) := by
  unfold Inv standard_groups
  dsimp only
  refine ⟨?_, ?_, ?_, ?_, ?_, ?_⟩
  · intro e he
    exact hloop e (List.mem_toFinset.mp he)
  · intro e he
    rw [List.mem_filter] at he
    exact ⟨List.mem_toFinset.mpr he.1, of_decide_eq_true he.2⟩
  · intro e he
    rw [List.mem_filter] at he
    exact ⟨List.mem_toFinset.mpr he.1, of_decide_eq_true he.2⟩
  · exact hnd.filter _
  · exact hnd.filter _
  · intro e he
    rw [List.mem_filter] at he ⊢
    have h2 : ((e.2 : ℕ), e.1) ∈ l := List.mem_toFinset.mp (of_decide_eq_true he.2)
    refine ⟨h2, decide_eq_true ?_⟩
    show (((e.2 : ℕ), e.1).2, ((e.2 : ℕ), e.1).1) ∈ l.toFinset
    exact List.mem_toFinset.mpr (by simpa using he.1)

/-- One loop decision preserves the invariant, degrees and edge count. -/
theorem apply_decision_props (st : RWState) (d : Bool × ℕ × ℕ) (hinv : Inv st) :
    Inv (apply_decision st d).1 ∧
    (∀ x, out_degree (apply_decision st d).1.g x = out_degree st.g x ∧
          in_degree (apply_decision st d).1.g x = in_degree st.g x) ∧
    (apply_decision st d).1.g.card = st.g.card := by
  unfold apply_decision
  by_cases hd : d.1 = true
  · rw [if_pos hd]
    by_cases hz : st.uni.length = 0
    · rw [if_pos hz]
      exact ⟨hinv, fun x => ⟨rfl, rfl⟩, rfl⟩
    · rw [if_neg hz]
      have hu : d.2.1 % st.uni.length < st.uni.length := Nat.mod_lt _ (by omega)
      have hv : d.2.2 % st.uni.length < st.uni.length := Nat.mod_lt _ (by omega)
      obtain ⟨h1, h2, h3, _⟩ := switch_single_props st _ _ hu hv hinv
      exact ⟨h1, h2, h3⟩
  · rw [if_neg hd]
    by_cases hz : st.bi.length = 0
    · rw [if_pos hz]
      exact ⟨hinv, fun x => ⟨rfl, rfl⟩, rfl⟩
    · rw [if_neg hz]
      have hu : d.2.1 % st.bi.length < st.bi.length := Nat.mod_lt _ (by omega)
      have hv : d.2.2 % st.bi.length < st.bi.length := Nat.mod_lt _ (by omega)
      obtain ⟨h1, h2, h3, _⟩ := switch_double_props st _ _ hu hv hinv
      exact ⟨h1, h2, h3⟩

/-- The whole switching loop preserves the invariant, degrees and edge
count. -/
theorem apply_decisions_props (ds : List (Bool × ℕ × ℕ)) :
    ∀ (st : RWState), Inv st →
    Inv (apply_decisions st ds).1 ∧
    (∀ x, out_degree (apply_decisions st ds).1.g x = out_degree st.g x ∧
          in_degree (apply_decisions st ds).1.g x = in_degree st.g x) ∧
    (apply_decisions st ds).1.g.card = st.g.card := by
  induction ds with
  | nil => intro st hinv; exact ⟨hinv, fun x => ⟨rfl, rfl⟩, rfl⟩
  | cons d t ih =>
    intro st hinv
    obtain ⟨h1, h2, h3⟩ := apply_decision_props st d hinv
    obtain ⟨g1, g2, g3⟩ := ih (apply_decision st d).1 h1
    exact ⟨g1,
      fun x => ⟨(g2 x).1.trans (h2 x).1, (g2 x).2.trans (h2 x).2⟩,
      g3.trans h3⟩

/-- C4: whatever decisions the switching loop draws, randomise returns
a graph in which every node keeps its exact in-degree and out-degree and
the total edge count is unchanged.  The source provides exactly one
legality policy, check_standard, which every switch consults. -/
theorem randomise_preserves_degrees (G : InGraph) (flip : ℕ) (ds : List (Bool × ℕ × ℕ))
    (hnd : G.edges.Nodup) (hloop : ∀ e ∈ G.edges, e.1 ≠ e.2)
    (g' : Finset Edge) (ratio : ℚ) (h : randomise G flip ds = .ok (g', ratio)) :
    (∀ x, out_degree g' x = out_degree G.edges.toFinset x ∧
          in_degree g' x = in_degree G.edges.toFinset x) ∧
    g'.card = G.edges.toFinset.card := by
  simp only [randomise] at h
  split_ifs at h with h1 h2 h3 h4
  · rw [Except.ok.injEq, Prod.mk.injEq] at h
    rw [← h.1]
    exact ⟨fun x => ⟨rfl, rfl⟩, rfl⟩
  · rw [Except.ok.injEq, Prod.mk.injEq] at h
    rw [← h.1]
    exact ⟨fun x => ⟨rfl, rfl⟩, rfl⟩
  · rw [Except.ok.injEq, Prod.mk.injEq] at h
    rw [← h.1]
    have hinv := Inv_standard_groups hnd hloop
    obtain ⟨_, hdeg, hcard⟩ := apply_decisions_props
      ((ds.take (expected_flips flip (standard_groups G.edges).uni.length 1 +
        expected_flips flip (standard_groups G.edges).bi.length 2)))
      (standard_groups G.edges) hinv
    exact ⟨hdeg, hcard⟩

/-- Witness for C4: a one-edge graph goes through randomise with its
degrees intact. -/
theorem randomise_preserves_degrees_witness :
    randomise ⟨[((0 : ℕ), (1 : ℕ))], false⟩ 100 [] =
      .ok ([((0 : ℕ), (1 : ℕ))].toFinset, 0) ∧
    (∀ x, out_degree [((0 : ℕ), (1 : ℕ))].toFinset x =
            out_degree [((0 : ℕ), (1 : ℕ))].toFinset x ∧
          in_degree [((0 : ℕ), (1 : ℕ))].toFinset x =
            in_degree [((0 : ℕ), (1 : ℕ))].toFinset x) ∧
    ([((0 : ℕ), (1 : ℕ))].toFinset : Finset Edge).card =
      ([((0 : ℕ), (1 : ℕ))].toFinset : Finset Edge).card :=
  ⟨rfl,
   randomise_preserves_degrees ⟨[((0 : ℕ), (1 : ℕ))], false⟩ 100 [] (by decide)
     (by decide) [((0 : ℕ), (1 : ℕ))].toFinset 0 rfl⟩

/-- C5: at every step of the switching process under the standard
policy, the graph stays free of self-loops, the edge count is unchanged
by the step (no silent parallel-edge merge), and every edge present
before and after the step keeps its reciprocity class: unidirectional
edges stay unidirectional and bidirectional edges stay bidirectional. -/
theorem standard_policy_class_invariants (st0 st st' : RWState) (h0 : Inv st0)
    (hchain : Relation.ReflTransGen RWStep st0 st) (hstep : RWStep st st') :
    (∀ e ∈ st'.g, e.1 ≠ e.2) ∧
    st'.g.card = st.g.card ∧
    (∀ e, e ∈ st.g → e ∈ st'.g → ((e.2, e.1) ∈ st.g ↔ (e.2, e.1) ∈ st'.g)) := by
  have hinv := (RWChain_props h0 hchain).1
  obtain ⟨hinv2, _, hcard, hclass⟩ := RWStep_props hinv hstep
  exact ⟨hinv2.1, hcard, hclass⟩

/-- Witness for C5: one accepted single switch on a two-edge graph. -/
theorem standard_policy_class_invariants_witness :
    (∀ e ∈ (switch_single
        (standard_groups [((0 : ℕ), (1 : ℕ)), ((2 : ℕ), (3 : ℕ))]) 0 1).g,
      e.1 ≠ e.2) ∧
    (switch_single (standard_groups [((0 : ℕ), (1 : ℕ)), ((2 : ℕ), (3 : ℕ))]) 0 1).g.card =
      (standard_groups [((0 : ℕ), (1 : ℕ)), ((2 : ℕ), (3 : ℕ))]).g.card ∧
    (∀ e, e ∈ (standard_groups [((0 : ℕ), (1 : ℕ)), ((2 : ℕ), (3 : ℕ))]).g →
      e ∈ (switch_single (standard_groups [((0 : ℕ), (1 : ℕ)), ((2 : ℕ), (3 : ℕ))]) 0 1).g →
      (((e.2 : ℕ), e.1) ∈ (standard_groups [((0 : ℕ), (1 : ℕ)), ((2 : ℕ), (3 : ℕ))]).g ↔
        ((e.2 : ℕ), e.1) ∈
          (switch_single (standard_groups [((0 : ℕ), (1 : ℕ)), ((2 : ℕ), (3 : ℕ))]) 0 1).g)) :=
  standard_policy_class_invariants
    (standard_groups [((0 : ℕ), (1 : ℕ)), ((2 : ℕ), (3 : ℕ))])
    (standard_groups [((0 : ℕ), (1 : ℕ)), ((2 : ℕ), (3 : ℕ))]) _
    (by unfold Inv; decide)
    Relation.ReflTransGen.refl
    (RWStep.single _ 0 1 (by decide) (by decide))

/-- C9: randomise rejects every multigraph input with a domain error
before any mutation, returns an edgeless graph unmodified with success
ratio 0.0 rather than an error, and returns the graph unmodified with
ratio 0.0 whenever every category's expected number of attempts is zero
at the start of the switching stage. -/
theorem randomise_guards (G : InGraph) (flip : ℕ) (ds : List (Bool × ℕ × ℕ)) :
    (G.isMulti = true → randomise G flip ds = .error "not defined for multigraphs") ∧
    (G.isMulti = false → G.edges.length = 0 →
      randomise G flip ds = .ok (G.edges.toFinset, 0)) ∧
    (G.isMulti = false → (∀ e ∈ G.edges, e.1 ≠ e.2) →
      expected_flips flip (standard_groups G.edges).uni.length 1 +
        expected_flips flip (standard_groups G.edges).bi.length 2 = 0 →
      randomise G flip ds = .ok (G.edges.toFinset, 0)) := by
  refine ⟨?_, ?_, ?_⟩
  · intro hm
    simp [randomise, hm]
  · intro hm hlen
    simp [randomise, hm, hlen]
  · intro hm hloop hzero
    have hsl : ¬ ∃ e ∈ G.edges, e.1 = e.2 := by
      push_neg
      exact hloop
    by_cases hlen : G.edges.length = 0
    · simp [randomise, hm, hlen]
    · simp [randomise, hm, hlen, hsl, hzero]

/-- Witness for C9: a multigraph-flagged input errors, an edgeless graph
and a graph whose categories are all too small both return unmodified
with ratio 0. -/
theorem randomise_guards_witness :
    randomise ⟨[((0 : ℕ), (1 : ℕ))], true⟩ 100 [] =
      .error "not defined for multigraphs" ∧
    randomise ⟨([] : List Edge), false⟩ 100 [] = .ok (([] : List Edge).toFinset, 0) ∧
    randomise ⟨[((0 : ℕ), (1 : ℕ))], false⟩ 100 [] =
      .ok ([((0 : ℕ), (1 : ℕ))].toFinset, 0) :=
  ⟨(randomise_guards ⟨[((0 : ℕ), (1 : ℕ))], true⟩ 100 []).1 rfl,
   (randomise_guards ⟨([] : List Edge), false⟩ 100 []).2.1 rfl rfl,
   (randomise_guards ⟨[((0 : ℕ), (1 : ℕ))], false⟩ 100 []).2.2 rfl (by decide) (by decide)⟩

end EverydayUtils
